import Mathlib

/-!
Verification development for the iMentor curriculum ingestion pipeline.

The Python modules under server/rag_service are shallowly embedded:
Python dicts become association lists with unique keys (insertion
ordered, like Python dicts and the Neo4j node stores keyed by MERGE
properties), stateful Neo4j sessions become explicit state passing on a
graph-state record, and regular expressions are hand-compiled into
structural matchers on character lists.
-/

set_option maxHeartbeats 1000000

/-! ## Insertion-ordered dictionaries (Python dict / Neo4j MERGE stores) -/

section Dict

variable {K A : Type} [DecidableEq K]

/-- Lookup, Python `d.get(k)`. -/
def dictGet : List (K × A) → K → Option A
  | [], _ => none
  | p :: t, k => if p.1 = k then some p.2 else dictGet t k

/-- Membership test, Python `k in d`. -/
def dictHas (l : List (K × A)) (k : K) : Bool :=
  (dictGet l k).isSome

/-- Assignment `d[k] = v`: overwrite the entry when the key is present
(keeping insertion order, as Python dicts and Neo4j MERGE on existing
nodes do), append otherwise. -/
def dictUpsert : List (K × A) → K → A → List (K × A)
  | [], k, v => [(k, v)]
  | p :: t, k, v => if p.1 = k then (k, v) :: t else p :: dictUpsert t k v

/-- Replay a list of assignments left to right. -/
def applyWrites (l : List (K × A)) (ws : List (K × A)) : List (K × A) :=
  ws.foldl (fun s kv => dictUpsert s kv.1 kv.2) l

/-- The value of the last assignment to `k` in `ws`, if any. -/
def lastWrite (ws : List (K × A)) (k : K) : Option A :=
  ws.foldr (fun kv acc => acc.orElse (fun _ => if kv.1 = k then some kv.2 else none)) none

theorem dictGet_upsert (l : List (K × A)) (k k' : K) (v : A) :
    dictGet (dictUpsert l k v) k' = if k' = k then some v else dictGet l k' := by
  induction l with
  | nil =>
    by_cases h : k' = k
    · simp [dictUpsert, dictGet, h]
    · have h2 : ¬ (k = k') := fun he => h he.symm
      simp [dictUpsert, dictGet, h, h2]
  | cons p t ih =>
    by_cases hp : p.1 = k
    · by_cases h : k' = k
      · simp [dictUpsert, dictGet, hp, h]
      · have h2 : ¬ (k = k') := fun he => h he.symm
        have hpk' : ¬ (p.1 = k') := fun he => h2 (hp ▸ he)
        simp [dictUpsert, dictGet, hp, h, h2, hpk']
    · by_cases hpk' : p.1 = k'
      · have h : ¬ (k' = k) := fun he => hp (hpk'.trans he)
        simp [dictUpsert, dictGet, hp, hpk', h]
      · simp [dictUpsert, dictGet, hp, hpk', ih]

theorem dictHas_upsert (l : List (K × A)) (k k' : K) (v : A) :
    dictHas (dictUpsert l k v) k' = (dictHas l k' || decide (k' = k)) := by
  unfold dictHas
  rw [dictGet_upsert]
  by_cases h : k' = k <;> simp [h]

theorem dictHas_iff_mem (l : List (K × A)) (k : K) :
    dictHas l k = true ↔ k ∈ l.map (·.1) := by
  induction l with
  | nil => simp [dictHas, dictGet]
  | cons p t ih =>
    by_cases hp : p.1 = k
    · simp [dictHas, dictGet, hp]
    · have h2 : ¬ (k = p.1) := fun he => hp he.symm
      simp only [dictHas, dictGet, if_neg hp, List.map_cons, List.mem_cons]
      rw [← dictHas, ih]
      simp [h2]

theorem dictGet_eq_none (l : List (K × A)) (k : K) (h : ¬ k ∈ l.map (·.1)) :
    dictGet l k = none := by
  cases hg : dictGet l k with
  | none => rfl
  | some a =>
    exfalso
    apply h
    rw [← dictHas_iff_mem]
    simp [dictHas, hg]

theorem dictUpsert_keys_of_has (l : List (K × A)) (k : K) (v : A) (h : dictHas l k = true) :
    (dictUpsert l k v).map (·.1) = l.map (·.1) := by
  induction l with
  | nil => simp [dictHas, dictGet] at h
  | cons p t ih =>
    by_cases hp : p.1 = k
    · simp [dictUpsert, hp]
    · have ht : dictHas t k = true := by
        simpa [dictHas, dictGet, hp] using h
      simp [dictUpsert, hp, ih ht]

theorem dictUpsert_fresh (l : List (K × A)) (k : K) (v : A)
    (h : dictHas l k = false) : dictUpsert l k v = l ++ [(k, v)] := by
  induction l with
  | nil => simp [dictUpsert]
  | cons p t ih =>
    by_cases hp : p.1 = k
    · simp [dictHas, dictGet, hp] at h
    · have ht : dictHas t k = false := by
        simpa [dictHas, dictGet, hp] using h
      simp [dictUpsert, hp, ih ht]

theorem dictUpsert_keys_of_not_has (l : List (K × A)) (k : K) (v : A)
    (h : dictHas l k = false) :
    (dictUpsert l k v).map (·.1) = l.map (·.1) ++ [k] := by
  rw [dictUpsert_fresh l k v h]
  simp

theorem dictUpsert_nodup (l : List (K × A)) (k : K) (v : A)
    (h : (l.map (·.1)).Nodup) : ((dictUpsert l k v).map (·.1)).Nodup := by
  by_cases hh : dictHas l k
  · rw [dictUpsert_keys_of_has l k v hh]; exact h
  · rw [dictUpsert_keys_of_not_has l k v (by simpa using hh)]
    rw [List.nodup_append]
    refine ⟨h, List.nodup_singleton k, ?_⟩
    intro a ha hb
    have hnotin : ¬ (k ∈ l.map (·.1)) := by
      rw [← dictHas_iff_mem]; simpa using hh
    simp only [List.mem_singleton] at hb
    subst hb
    exact hnotin ha

theorem applyWrites_nil (l : List (K × A)) : applyWrites l [] = l := rfl

theorem applyWrites_cons (l : List (K × A)) (kv : K × A) (ws : List (K × A)) :
    applyWrites l (kv :: ws) = applyWrites (dictUpsert l kv.1 kv.2) ws := rfl

theorem lastWrite_cons (kv : K × A) (ws : List (K × A)) (k : K) :
    lastWrite (kv :: ws) k
      = (lastWrite ws k).orElse (fun _ => if kv.1 = k then some kv.2 else none) := rfl

theorem dictGet_applyWrites (ws : List (K × A)) (l : List (K × A)) (k : K) :
    dictGet (applyWrites l ws) k
      = (lastWrite ws k).orElse (fun _ => dictGet l k) := by
  induction ws generalizing l with
  | nil => simp [applyWrites, lastWrite]
  | cons kv ws ih =>
    rw [applyWrites_cons, ih, lastWrite_cons]
    cases hlw : lastWrite ws k with
    | some a => simp [Option.orElse]
    | none =>
      simp only [Option.orElse, Option.none_orElse]
      rw [dictGet_upsert]
      by_cases h : k = kv.1
      · simp [h]
      · have h2 : ¬ (kv.1 = k) := fun he => h he.symm
        simp [h, h2]

theorem dictHas_applyWrites_mono (ws : List (K × A)) (l : List (K × A)) (k : K)
    (h : dictHas l k = true) : dictHas (applyWrites l ws) k = true := by
  induction ws generalizing l with
  | nil => simpa [applyWrites]
  | cons kv ws ih =>
    rw [applyWrites_cons]
    apply ih
    rw [dictHas_upsert]
    simp [h]

theorem dictHas_applyWrites_of_mem (ws : List (K × A)) (l : List (K × A)) (k : K)
    (h : k ∈ ws.map (·.1)) : dictHas (applyWrites l ws) k = true := by
  induction ws generalizing l with
  | nil => simp at h
  | cons kv ws ih =>
    rw [applyWrites_cons]
    rcases (by simpa using h : k = kv.1 ∨ k ∈ ws.map (·.1)) with h1 | h1
    · apply dictHas_applyWrites_mono
      rw [dictHas_upsert]
      simp [h1]
    · exact ih _ h1

theorem applyWrites_keys_stable (ws : List (K × A)) (l : List (K × A))
    (h : ∀ kv ∈ ws, dictHas l kv.1 = true) :
    (applyWrites l ws).map (·.1) = l.map (·.1) := by
  induction ws generalizing l with
  | nil => simp [applyWrites]
  | cons kv ws ih =>
    rw [applyWrites_cons]
    have h1 : dictHas l kv.1 = true := h kv (by simp)
    rw [ih]
    · exact dictUpsert_keys_of_has l kv.1 kv.2 h1
    · intro kv' hkv'
      rw [dictHas_upsert]
      simp [h kv' (by simp [hkv'])]

theorem applyWrites_nodup (ws : List (K × A)) (l : List (K × A))
    (h : (l.map (·.1)).Nodup) : ((applyWrites l ws).map (·.1)).Nodup := by
  induction ws generalizing l with
  | nil => simpa [applyWrites]
  | cons kv ws ih =>
    rw [applyWrites_cons]
    exact ih _ (dictUpsert_nodup _ _ _ h)

/-- Two unique-key dictionaries with the same ordered key list and the same
lookups are equal. -/
theorem dict_ext (a : List (K × A)) : ∀ (b : List (K × A)),
    (a.map (·.1)).Nodup →
    a.map (·.1) = b.map (·.1) →
    (∀ k, dictGet a k = dictGet b k) → a = b := by
  induction a with
  | nil =>
    intro b _ hk _
    cases b with
    | nil => rfl
    | cons q t => simp at hk
  | cons p t ih =>
    intro b hna hk hv
    cases b with
    | nil => simp at hk
    | cons q s =>
      simp only [List.map_cons, List.cons.injEq] at hk
      obtain ⟨hpq, hts⟩ := hk
      have hvp : p.2 = q.2 := by
        have := hv p.1
        simp only [dictGet, if_pos rfl] at this
        rw [if_pos hpq.symm] at this
        exact Option.some.inj this
      simp only [List.map_cons, List.nodup_cons] at hna
      have htv : ∀ k, dictGet t k = dictGet s k := by
        intro k
        by_cases hkp : k = p.1
        · subst hkp
          rw [dictGet_eq_none t p.1 hna.1, dictGet_eq_none s p.1 (hts ▸ hna.1)]
        · have hp1 : ¬ (p.1 = k) := fun he => hkp he.symm
          have hq1 : ¬ (q.1 = k) := fun he => hkp (hpq.trans he).symm
          have := hv k
          simpa [dictGet, hp1, hq1] using this
      have hts' : t = s := ih s hna.2 hts htv
      calc p :: t = (p.1, p.2) :: t := rfl
        _ = (q.1, q.2) :: s := by rw [hpq, hvp, hts']
        _ = q :: s := rfl

/-- Replaying the same write list twice is the same as replaying it once. -/
theorem applyWrites_idem (ws : List (K × A)) (l : List (K × A))
    (h : (l.map (·.1)).Nodup) :
    applyWrites (applyWrites l ws) ws = applyWrites l ws := by
  apply dict_ext
  · exact applyWrites_nodup _ _ (applyWrites_nodup _ _ h)
  · apply applyWrites_keys_stable
    intro kv hkv
    exact dictHas_applyWrites_of_mem ws l kv.1 (List.mem_map_of_mem _ hkv)
  · intro k
    rw [dictGet_applyWrites, dictGet_applyWrites]
    cases lastWrite ws k with
    | some a => simp [Option.orElse]
    | none => simp [Option.orElse]

theorem dictHas_append (a b : List (K × A)) (k : K) :
    dictHas (a ++ b) k = (dictHas a k || dictHas b k) := by
  induction a with
  | nil => simp [dictHas, dictGet]
  | cons p t ih =>
    by_cases hp : p.1 = k
    · simp [dictHas, dictGet, hp]
    · simpa [dictHas, dictGet, hp] using ih

/-- Writing a fresh batch of distinct keys just appends the batch. -/
theorem applyWrites_fresh (ws : List (K × A)) (l : List (K × A))
    (hfresh : ∀ kv ∈ ws, dictHas l kv.1 = false)
    (hnd : (ws.map (·.1)).Nodup) :
    applyWrites l ws = l ++ ws := by
  induction ws generalizing l with
  | nil => simp [applyWrites]
  | cons kv ws ih =>
    rw [applyWrites_cons]
    have h1 : dictHas l kv.1 = false := hfresh kv (by simp)
    rw [dictUpsert_fresh l kv.1 kv.2 h1]
    simp only [List.map_cons, List.nodup_cons] at hnd
    rw [ih]
    · have hkv : kv = (kv.1, kv.2) := rfl
      rw [List.append_assoc, ← hkv]
      rfl
    · intro kv' hkv'
      rw [dictHas_append]
      have hne : ¬ (kv'.1 = kv.1) := by
        intro he
        exact hnd.1 (he ▸ List.mem_map_of_mem _ hkv')
      have hne' : ¬ (kv.1 = kv'.1) := fun he => hne he.symm
      have hf : dictHas l kv'.1 = false := hfresh kv' (by simp [hkv'])
      have hg : dictGet l kv'.1 = none := by
        cases hgg : dictGet l kv'.1 with
        | none => rfl
        | some a => rw [dictHas, hgg] at hf; simp at hf
      simp [dictHas, dictGet, hne', hg]
    · exact hnd.2

/-! ## Stable sort (Python `sorted`, Cypher ORDER BY) -/

section StableSort

variable {A : Type} {B : Type} [LinearOrder B] (key : A → B)

/-- Insert `x` in front of the first element whose key is not smaller,
so that `x` lands after earlier-listed elements with equal keys. -/
def insertStable (x : A) : List A → List A
  | [] => [x]
  | y :: ys => if key y < key x then y :: insertStable x ys else x :: y :: ys

/-- Stable sort by a key function, as Python `sorted(key=...)`. -/
def sortStable : List A → List A
  | [] => []
  | x :: xs => insertStable key x (sortStable xs)

theorem insertStable_perm (x : A) (l : List A) :
    (insertStable key x l).Perm (x :: l) := by
  induction l with
  | nil => simp [insertStable]
  | cons y ys ih =>
    by_cases h : key y < key x
    · simp only [insertStable, if_pos h]
      exact (List.Perm.cons y ih).trans (List.Perm.swap x y ys)
    · simp [insertStable, if_neg h]

theorem sortStable_perm (l : List A) : (sortStable key l).Perm l := by
  induction l with
  | nil => simp [sortStable]
  | cons x xs ih =>
    exact (insertStable_perm key x _).trans (List.Perm.cons x ih)

theorem insertStable_sorted (x : A) (l : List A)
    (h : l.Pairwise (fun a b => key a ≤ key b)) :
    (insertStable key x l).Pairwise (fun a b => key a ≤ key b) := by
  induction l with
  | nil => simp [insertStable]
  | cons y ys ih =>
    rcases List.pairwise_cons.mp h with ⟨hy, hys⟩
    by_cases hlt : key y < key x
    · simp only [insertStable, if_pos hlt]
      rw [List.pairwise_cons]
      constructor
      · intro a ha
        have := (insertStable_perm key x ys).mem_iff.mp ha
        rcases (by simpa using this : a = x ∨ a ∈ ys) with h1 | h1
        · exact h1 ▸ le_of_lt hlt
        · exact hy a h1
      · exact ih hys
    · simp only [insertStable, if_neg hlt]
      rw [List.pairwise_cons]
      constructor
      · intro a ha
        rcases (by simpa using ha : a = y ∨ a ∈ ys) with h1 | h1
        · exact h1 ▸ le_of_not_lt hlt
        · exact le_trans (le_of_not_lt hlt) (hy a h1)
      · exact h

theorem sortStable_sorted (l : List A) :
    (sortStable key l).Pairwise (fun a b => key a ≤ key b) := by
  induction l with
  | nil => simp [sortStable]
  | cons x xs ih => exact insertStable_sorted key x _ ih

theorem filter_insertStable (x : A) (l : List A) (k : B) :
    (insertStable key x l).filter (fun a => decide (key a = k))
      = if key x = k then x :: l.filter (fun a => decide (key a = k))
        else l.filter (fun a => decide (key a = k)) := by
  induction l with
  | nil =>
    by_cases h : key x = k <;> simp [insertStable, h]
  | cons y ys ih =>
    by_cases hlt : key y < key x
    · simp only [insertStable, if_pos hlt]
      by_cases hx : key x = k
      · have hy : ¬ (key y = k) := fun he => absurd (hx ▸ he ▸ hlt) (lt_irrefl _)
        simp [List.filter, hy, ih, hx]
      · simp [List.filter, ih, hx]
    · simp only [insertStable, if_neg hlt]
      by_cases hx : key x = k <;> simp [List.filter, hx]

theorem sortStable_filter (l : List A) (k : B) :
    (sortStable key l).filter (fun a => decide (key a = k))
      = l.filter (fun a => decide (key a = k)) := by
  induction l with
  | nil => simp [sortStable]
  | cons x xs ih =>
    rw [sortStable, filter_insertStable]
    by_cases hx : key x = k <;> simp [List.filter, hx, ih]

theorem insertStable_of_lt (x : A) (l : List A)
    (h : ∀ y ∈ l, key x < key y) : insertStable key x l = x :: l := by
  cases l with
  | nil => rfl
  | cons y ys =>
    have : ¬ (key y < key x) := not_lt_of_gt (h y (by simp))
    simp [insertStable, this]

theorem sortStable_of_sorted (l : List A)
    (h : l.Pairwise (fun a b => key a < key b)) : sortStable key l = l := by
  induction l with
  | nil => rfl
  | cons x xs ih =>
    rcases List.pairwise_cons.mp h with ⟨hx, hxs⟩
    rw [sortStable, ih hxs]
    exact insertStable_of_lt key x xs hx

end StableSort

/-! ## Graph model for curriculum_graph_handler.py

Nodes are keyed by the MERGE properties `{id, course}` per label; the
`createdAt` and `updatedAt` timestamps, which no claim mentions, are not
modeled.  Edges record the `(id, course)` keys of both endpoints. -/

/-- Python `str.strip` whitespace set (ASCII; the model does not cover
exotic Unicode whitespace). -/
def pyIsSpace (c : Char) : Bool :=
  decide (c = ' ' ∨ c = '\t' ∨ c = '\n' ∨ c = '\r' ∨ c = '\x0b' ∨ c = '\x0c')

/-- Python `str.strip()`. -/
def strStrip (s : String) : String :=
  ⟨((s.data.dropWhile pyIsSpace).reverse.dropWhile pyIsSpace).reverse⟩

/-- Python `str.lower()` (ASCII). -/
def strLower (s : String) : String :=
  ⟨s.data.map Char.toLower⟩

/-- Python `str.replace(a, b)` for single-character patterns. -/
def strReplaceChar (a b : Char) (s : String) : String :=
  ⟨s.data.map (fun c => if c = a then b else c)⟩

/-- Python `str.split(sep)` for a single-character separator. -/
def splitChar (sep : Char) : List Char → List (List Char)
  | [] => [[]]
  | c :: rest =>
    match splitChar sep rest with
    | [] => [[c]]
    | h :: t => if c = sep then [] :: h :: t else (c :: h) :: t

def strSplitComma (s : String) : List String :=
  (splitChar ',' s.data).map (fun l => ⟨l⟩)

/-- `normalize_id` from curriculum_graph_handler.py. -/
def normalize_id (raw_id : String) : String :=
  if raw_id = "" then ""
  else strReplaceChar '-' '_' (strReplaceChar ' ' '_' (strLower (strStrip raw_id)))

abbrev NodeKey := String × String

structure ModuleProps where
  name : String
  order : Int
deriving DecidableEq

structure TopicProps where
  name : String
  moduleId : Option String
deriving DecidableEq

structure SubtopicProps where
  name : String
  topicId : String
deriving DecidableEq

structure GraphEdge where
  src : NodeKey
  dst : NodeKey
deriving DecidableEq

structure GraphState where
  moduleNodes : List (NodeKey × ModuleProps)
  topicNodes : List (NodeKey × TopicProps)
  subtopicNodes : List (NodeKey × SubtopicProps)
  precedes : List GraphEdge
  hasTopic : List GraphEdge
  prereqOf : List GraphEdge
deriving DecidableEq

def GraphState.empty : GraphState := ⟨[], [], [], [], [], []⟩

/-- Cypher `MERGE` on a relationship: create it unless it already exists. -/
def mergeEdge (es : List GraphEdge) (e : GraphEdge) : List GraphEdge :=
  if e ∈ es then es else es ++ [e]

/-- A module dict as consumed by `_build_modules_transactional`. -/
structure ModuleIn where
  id : String
  name : String
  order : Int
deriving DecidableEq

/-- A topic dict as consumed by `_build_topics_transactional`
(`lecture_number` is produced by `parse_unified_csv` and ignored by the
builder). -/
structure TopicIn where
  id : String
  name : String
  moduleId : Option String
  lectureNumber : Option Int
deriving DecidableEq

/-- A subtopic dict as consumed by `_build_subtopics_transactional`. -/
structure SubtopicIn where
  id : String
  name : String
  topicId : String
deriving DecidableEq

/-- Python truthiness of the optional `module_id` string
(`if topic[...]:` is false for `None` and for the empty string). -/
def optTruthy : Option String → Bool
  | none => false
  | some s => decide (s ≠ "")

/-- One `MERGE (m:Module {id: $id, course: $course}) ON CREATE SET ... ON
MATCH SET ...` statement; create and match set the same modeled fields. -/
def mergeModuleNode (course : String) (st : GraphState) (m : ModuleIn) : GraphState :=
  { st with moduleNodes := dictUpsert st.moduleNodes (m.id, course) ⟨m.name, m.order⟩ }

/-- One `MATCH (m1) MATCH (m2) MERGE (m1)-[:PRECEDES]->(m2)` statement:
the merge runs only when both MATCHes produce a row. -/
def addPrecedesEdge (course : String) (st : GraphState) (p : ModuleIn × ModuleIn) : GraphState :=
  if dictHas st.moduleNodes (p.1.id, course) && dictHas st.moduleNodes (p.2.id, course)
  then { st with precedes := mergeEdge st.precedes ⟨(p.1.id, course), (p.2.id, course)⟩ }
  else st

/-- `_build_modules_transactional`: the node loop counts one per module,
since `MERGE ... RETURN m` always yields a row, matched or created; the
edge loop pairs consecutive list entries (`range(len(modules) - 1)`). -/
def build_modules_transactional (course : String) (modules : List ModuleIn)
    (st : GraphState) : GraphState × Nat :=
  let nodePass := modules.foldl (fun acc m => (mergeModuleNode course acc.1 m, acc.2 + 1)) (st, 0)
  let edgePass := (modules.zip modules.tail).foldl (addPrecedesEdge course) nodePass.1
  (edgePass, nodePass.2)

/-- One iteration of the `_build_topics_transactional` loop: merge the
topic node (always counted, as `MERGE ... RETURN t` always yields a row),
then, when `module_id` is truthy, run the relationship query, counting it
only when both MATCHes succeed (`result.single()` is a row even when the
relationship already existed). -/
def mergeTopicStep (course : String) (acc : GraphState × Nat × Nat) (t : TopicIn) :
    GraphState × Nat × Nat :=
  let st1 := { acc.1 with topicNodes := dictUpsert acc.1.topicNodes (t.id, course) ⟨t.name, t.moduleId⟩ }
  let nodes := acc.2.1 + 1
  if optTruthy t.moduleId then
    let mid := t.moduleId.getD ""
    if dictHas st1.moduleNodes (mid, course) && dictHas st1.topicNodes (t.id, course) then
      ({ st1 with hasTopic := mergeEdge st1.hasTopic ⟨(mid, course), (t.id, course)⟩ },
       nodes, acc.2.2 + 1)
    else (st1, nodes, acc.2.2)
  else (st1, nodes, acc.2.2)

/-- `_build_topics_transactional`, returning (state, nodes, relationships). -/
def build_topics_transactional (course : String) (topics : List TopicIn)
    (st : GraphState) : GraphState × Nat × Nat :=
  topics.foldl (mergeTopicStep course) (st, 0, 0)

/-- One iteration of the `_build_subtopics_transactional` loop. -/
def mergeSubtopicStep (course : String) (acc : GraphState × Nat × Nat) (s : SubtopicIn) :
    GraphState × Nat × Nat :=
  let st1 := { acc.1 with subtopicNodes := dictUpsert acc.1.subtopicNodes (s.id, course) ⟨s.name, s.topicId⟩ }
  let nodes := acc.2.1 + 1
  if decide (s.topicId ≠ "") then
    if dictHas st1.subtopicNodes (s.id, course) && dictHas st1.topicNodes (s.topicId, course) then
      ({ st1 with prereqOf := mergeEdge st1.prereqOf ⟨(s.id, course), (s.topicId, course)⟩ },
       nodes, acc.2.2 + 1)
    else (st1, nodes, acc.2.2)
  else (st1, nodes, acc.2.2)

/-- `_build_subtopics_transactional`, returning (state, nodes, relationships). -/
def build_subtopics_transactional (course : String) (subtopics : List SubtopicIn)
    (st : GraphState) : GraphState × Nat × Nat :=
  subtopics.foldl (mergeSubtopicStep course) (st, 0, 0)

/-- The result dict of `build_curriculum_graph`. -/
structure BuildSummary where
  success : Bool
  course : String
  modules_created : Nat
  topics_created : Nat
  subtopics_created : Nat
  precedes_relationships : Nat
  has_topic_relationships : Nat
  prerequisite_of_relationships : Nat
deriving DecidableEq

/-- `build_curriculum_graph`: the three write transactions in order, then
the summary dict (`precedes_relationships` is computed from the input
length, not from the database). -/
def build_curriculum_graph (course : String) (modules : List ModuleIn)
    (topics : List TopicIn) (subtopics : List SubtopicIn)
    (st : GraphState) : GraphState × BuildSummary :=
  let r1 := build_modules_transactional course modules st
  let r2 := build_topics_transactional course topics r1.1
  let r3 := build_subtopics_transactional course subtopics r2.1
  (r3.1,
   { success := true
     course := course
     modules_created := r1.2
     topics_created := r2.2.1
     subtopics_created := r3.2.1
     precedes_relationships := if modules.length > 1 then modules.length - 1 else 0
     has_topic_relationships := r2.2.2
     prerequisite_of_relationships := r3.2.2 })

/-! ## Decomposition of the three build phases -/

/-- The node writes of the module phase. -/
def moduleWrites (course : String) (ms : List ModuleIn) : List (NodeKey × ModuleProps) :=
  ms.map (fun m => ((m.id, course), ⟨m.name, m.order⟩))

/-- The node writes of the topic phase. -/
def topicWrites (course : String) (ts : List TopicIn) : List (NodeKey × TopicProps) :=
  ts.map (fun t => ((t.id, course), ⟨t.name, t.moduleId⟩))

/-- The node writes of the subtopic phase. -/
def subtopicWrites (course : String) (ss : List SubtopicIn) : List (NodeKey × SubtopicProps) :=
  ss.map (fun s => ((s.id, course), ⟨s.name, s.topicId⟩))

/-- Generic conditional relationship-MERGE fold. -/
def edgeFold {X : Type} (cond : X → Bool) (edge : X → GraphEdge)
    (xs : List X) (es : List GraphEdge) : List GraphEdge :=
  xs.foldl (fun acc x => if cond x then mergeEdge acc (edge x) else acc) es

theorem mergeEdge_mem (es : List GraphEdge) (e : GraphEdge) : e ∈ mergeEdge es e := by
  unfold mergeEdge
  by_cases h : e ∈ es <;> simp [h]

theorem mergeEdge_mono (es : List GraphEdge) (e e' : GraphEdge) (h : e' ∈ es) :
    e' ∈ mergeEdge es e := by
  unfold mergeEdge
  by_cases hm : e ∈ es <;> simp [hm, h]

theorem mergeEdge_of_mem (es : List GraphEdge) (e : GraphEdge) (h : e ∈ es) :
    mergeEdge es e = es := by
  simp [mergeEdge, h]

theorem edgeFold_mono {X : Type} (cond : X → Bool) (edge : X → GraphEdge)
    (xs : List X) (es : List GraphEdge) (e : GraphEdge) (h : e ∈ es) :
    e ∈ edgeFold cond edge xs es := by
  induction xs generalizing es with
  | nil => simpa [edgeFold]
  | cons x xs ih =>
    simp only [edgeFold, List.foldl_cons]
    by_cases hc : cond x
    · simp only [hc, if_true]
      exact ih _ (mergeEdge_mono _ _ _ h)
    · simp only [hc, if_false]
      exact ih _ h

theorem edgeFold_mem_all {X : Type} (cond : X → Bool) (edge : X → GraphEdge)
    (xs : List X) : ∀ (es : List GraphEdge), ∀ x ∈ xs, cond x = true →
    edge x ∈ edgeFold cond edge xs es := by
  induction xs with
  | nil => intro es x hx; simp at hx
  | cons y ys ih =>
    intro es x hx hc
    simp only [edgeFold, List.foldl_cons]
    rcases List.mem_cons.mp hx with h1 | h1
    · subst h1
      rw [if_pos hc]
      exact edgeFold_mono cond edge ys _ _ (mergeEdge_mem _ _)
    · by_cases hcy : cond y = true
      · rw [if_pos hcy]
        exact ih _ x h1 hc
      · rw [if_neg hcy]
        exact ih _ x h1 hc

theorem edgeFold_stable {X : Type} (cond : X → Bool) (edge : X → GraphEdge)
    (xs : List X) (es : List GraphEdge)
    (h : ∀ x ∈ xs, cond x = true → edge x ∈ es) :
    edgeFold cond edge xs es = es := by
  induction xs with
  | nil => rfl
  | cons x xs ih =>
    simp only [edgeFold, List.foldl_cons]
    by_cases hc : cond x = true
    · rw [if_pos hc, mergeEdge_of_mem _ _ (h x (by simp) hc)]
      exact ih (fun y hy hcy => h y (by simp [hy]) hcy)
    · rw [if_neg hc]
      exact ih (fun y hy hcy => h y (by simp [hy]) hcy)

/-- MATCH condition of the PRECEDES relationship query. -/
def precCond (course : String) (mstore : List (NodeKey × ModuleProps))
    (p : ModuleIn × ModuleIn) : Bool :=
  dictHas mstore (p.1.id, course) && dictHas mstore (p.2.id, course)

def precEdge (course : String) (p : ModuleIn × ModuleIn) : GraphEdge :=
  ⟨(p.1.id, course), (p.2.id, course)⟩

/-- MATCH condition of the HAS_TOPIC relationship query (the topic node
itself was just merged, so only the module lookup can fail). -/
def htCond (course : String) (mstore : List (NodeKey × ModuleProps)) (t : TopicIn) : Bool :=
  optTruthy t.moduleId && dictHas mstore (t.moduleId.getD "", course)

def htEdge (course : String) (t : TopicIn) : GraphEdge :=
  ⟨(t.moduleId.getD "", course), (t.id, course)⟩

/-- MATCH condition of the PREREQUISITE_OF relationship query (the
subtopic node itself was just merged, so only the topic lookup can fail). -/
def prCond (course : String) (tstore : List (NodeKey × TopicProps)) (s : SubtopicIn) : Bool :=
  decide (s.topicId ≠ "") && dictHas tstore (s.topicId, course)

def prEdge (course : String) (s : SubtopicIn) : GraphEdge :=
  ⟨(s.id, course), (s.topicId, course)⟩

theorem modules_node_fold_eq (course : String) (ms : List ModuleIn)
    (st : GraphState) (n : Nat) :
    ms.foldl (fun acc m => (mergeModuleNode course acc.1 m, acc.2 + 1)) (st, n)
      = ({ st with moduleNodes := applyWrites st.moduleNodes (moduleWrites course ms) },
         n + ms.length) := by
  induction ms generalizing st n with
  | nil => simp [moduleWrites, applyWrites]
  | cons m ms ih =>
    simp only [List.foldl_cons, moduleWrites, List.map_cons, List.length_cons]
    rw [ih]
    simp only [Prod.mk.injEq]
    constructor
    · rfl
    · omega

theorem precedes_fold_eq (course : String) (pairs : List (ModuleIn × ModuleIn))
    (st : GraphState) :
    pairs.foldl (addPrecedesEdge course) st
      = { st with precedes :=
            (edgeFold (precCond course st.moduleNodes) (precEdge course) pairs st.precedes) } := by
  induction pairs generalizing st with
  | nil => rfl
  | cons p ps ih =>
    simp only [List.foldl_cons]
    have hstep : addPrecedesEdge course st p
        = if precCond course st.moduleNodes p
          then { st with precedes := mergeEdge st.precedes (precEdge course p) }
          else st := rfl
    rw [hstep]
    by_cases hc : precCond course st.moduleNodes p = true
    · rw [if_pos hc, ih]
      have hfold : edgeFold (precCond course st.moduleNodes) (precEdge course) (p :: ps) st.precedes
          = edgeFold (precCond course st.moduleNodes) (precEdge course) ps
              (mergeEdge st.precedes (precEdge course p)) := by
        simp only [edgeFold, List.foldl_cons, hc, if_true]
      rw [hfold]
    · rw [if_neg hc, ih]
      have hfold : edgeFold (precCond course st.moduleNodes) (precEdge course) (p :: ps) st.precedes
          = edgeFold (precCond course st.moduleNodes) (precEdge course) ps st.precedes := by
        simp only [edgeFold, List.foldl_cons, if_neg hc]
      rw [hfold]

theorem build_modules_eq (course : String) (ms : List ModuleIn) (st : GraphState) :
    build_modules_transactional course ms st
      = ({ st with
            moduleNodes := applyWrites st.moduleNodes (moduleWrites course ms),
            precedes := edgeFold
              (precCond course (applyWrites st.moduleNodes (moduleWrites course ms)))
              (precEdge course) (ms.zip ms.tail) st.precedes },
         ms.length) := by
  unfold build_modules_transactional
  rw [modules_node_fold_eq]
  simp only [Nat.zero_add]
  rw [precedes_fold_eq]

theorem dictHas_upsert_self {K A : Type} [DecidableEq K]
    (l : List (K × A)) (k : K) (v : A) : dictHas (dictUpsert l k v) k = true := by
  rw [dictHas_upsert]
  simp


theorem topics_fold_eq (course : String) (ts : List TopicIn) :
    ∀ (st : GraphState) (n r : Nat),
    ts.foldl (mergeTopicStep course) (st, n, r)
      = ({ st with
            topicNodes := applyWrites st.topicNodes (topicWrites course ts),
            hasTopic := (edgeFold (htCond course st.moduleNodes) (htEdge course) ts st.hasTopic) },
         n + ts.length, r + ts.countP (htCond course st.moduleNodes)) := by
  induction ts with
  | nil =>
    intro st n r
    simp [topicWrites, applyWrites, edgeFold]
  | cons t ts ih =>
    intro st n r
    simp only [List.foldl_cons, List.length_cons, List.countP_cons]
    by_cases hc : htCond course st.moduleNodes t = true
    · have h1 : optTruthy t.moduleId = true :=
        (Bool.and_eq_true_iff.mp (by simpa [htCond] using hc)).1
      have h2 : dictHas st.moduleNodes (t.moduleId.getD "", course) = true :=
        (Bool.and_eq_true_iff.mp (by simpa [htCond] using hc)).2
      have hstep : mergeTopicStep course (st, n, r) t
          = ({ st with
                topicNodes := dictUpsert st.topicNodes (t.id, course) ⟨t.name, t.moduleId⟩,
                hasTopic := mergeEdge st.hasTopic (htEdge course t) },
             n + 1, r + 1) := by
        simp only [mergeTopicStep, h1, if_true, dictHas_upsert_self, Bool.and_true, h2, htEdge]
      rw [hstep, ih]
      have hfold : edgeFold (htCond course st.moduleNodes) (htEdge course) (t :: ts) st.hasTopic
          = edgeFold (htCond course st.moduleNodes) (htEdge course) ts
              (mergeEdge st.hasTopic (htEdge course t)) := by
        simp only [edgeFold, List.foldl_cons, hc, if_true]
      rw [hfold]
      simp only [Prod.mk.injEq, hc, if_true]
      refine ⟨rfl, by omega, by omega⟩
    · have hcf : htCond course st.moduleNodes t = false := by simpa using hc
      have hstep : mergeTopicStep course (st, n, r) t
          = ({ st with
                topicNodes := dictUpsert st.topicNodes (t.id, course) ⟨t.name, t.moduleId⟩ },
             n + 1, r) := by
        by_cases h1 : optTruthy t.moduleId = true
        · have h2 : dictHas st.moduleNodes (t.moduleId.getD "", course) = false := by
            have hx := hcf
            simp only [htCond, h1, Bool.true_and] at hx
            exact hx
          simp only [mergeTopicStep, h1, if_true, dictHas_upsert_self, Bool.and_true, h2,
            Bool.false_eq_true, if_false]
        · have h1f : optTruthy t.moduleId = false := by simpa using h1
          simp only [mergeTopicStep, h1f, Bool.false_eq_true, if_false]
      rw [hstep, ih]
      have hfold : edgeFold (htCond course st.moduleNodes) (htEdge course) (t :: ts) st.hasTopic
          = edgeFold (htCond course st.moduleNodes) (htEdge course) ts st.hasTopic := by
        simp only [edgeFold, List.foldl_cons, hcf, Bool.false_eq_true, if_false]
      rw [hfold]
      simp only [Prod.mk.injEq, hcf, Bool.false_eq_true, if_false]
      refine ⟨rfl, by omega, by omega⟩

theorem build_topics_eq (course : String) (ts : List TopicIn) (st : GraphState) :
    build_topics_transactional course ts st
      = ({ st with
            topicNodes := applyWrites st.topicNodes (topicWrites course ts),
            hasTopic := (edgeFold (htCond course st.moduleNodes) (htEdge course) ts st.hasTopic) },
         ts.length, ts.countP (htCond course st.moduleNodes)) := by
  unfold build_topics_transactional
  rw [topics_fold_eq]
  simp

theorem subtopics_fold_eq (course : String) (ss : List SubtopicIn) :
    ∀ (st : GraphState) (n r : Nat),
    ss.foldl (mergeSubtopicStep course) (st, n, r)
      = ({ st with
            subtopicNodes := applyWrites st.subtopicNodes (subtopicWrites course ss),
            prereqOf := (edgeFold (prCond course st.topicNodes) (prEdge course) ss st.prereqOf) },
         n + ss.length, r + ss.countP (prCond course st.topicNodes)) := by
  induction ss with
  | nil =>
    intro st n r
    simp [subtopicWrites, applyWrites, edgeFold]
  | cons s ss ih =>
    intro st n r
    simp only [List.foldl_cons, List.length_cons, List.countP_cons]
    by_cases hc : prCond course st.topicNodes s = true
    · have hand : (decide (s.topicId ≠ "") && dictHas st.topicNodes (s.topicId, course)) = true := hc
      have h1 : decide (s.topicId ≠ "") = true := (Bool.and_eq_true_iff.mp hand).1
      have h2 : dictHas st.topicNodes (s.topicId, course) = true := (Bool.and_eq_true_iff.mp hand).2
      have hstep : mergeSubtopicStep course (st, n, r) s
          = ({ st with
                subtopicNodes := dictUpsert st.subtopicNodes (s.id, course) ⟨s.name, s.topicId⟩,
                prereqOf := mergeEdge st.prereqOf (prEdge course s) },
             n + 1, r + 1) := by
        simp only [mergeSubtopicStep, h1, if_true, dictHas_upsert_self, Bool.true_and, h2, prEdge]
      rw [hstep, ih]
      have hfold : edgeFold (prCond course st.topicNodes) (prEdge course) (s :: ss) st.prereqOf
          = edgeFold (prCond course st.topicNodes) (prEdge course) ss
              (mergeEdge st.prereqOf (prEdge course s)) := by
        simp only [edgeFold, List.foldl_cons, hc, if_true]
      rw [hfold]
      simp only [Prod.mk.injEq, hc, if_true]
      refine ⟨rfl, by omega, by omega⟩
    · have hcf : prCond course st.topicNodes s = false := by simpa using hc
      have hstep : mergeSubtopicStep course (st, n, r) s
          = ({ st with
                subtopicNodes := dictUpsert st.subtopicNodes (s.id, course) ⟨s.name, s.topicId⟩ },
             n + 1, r) := by
        by_cases h1 : decide (s.topicId ≠ "") = true
        · have h2 : dictHas st.topicNodes (s.topicId, course) = false := by
            have hx := hcf
            simp only [prCond, h1, Bool.true_and] at hx
            exact hx
          simp only [mergeSubtopicStep, h1, if_true, dictHas_upsert_self, Bool.true_and, h2,
            Bool.false_eq_true, if_false]
        · have h1f : decide (s.topicId ≠ "") = false := by simpa using h1
          simp only [mergeSubtopicStep, h1f, Bool.false_eq_true, if_false]
      rw [hstep, ih]
      have hfold : edgeFold (prCond course st.topicNodes) (prEdge course) (s :: ss) st.prereqOf
          = edgeFold (prCond course st.topicNodes) (prEdge course) ss st.prereqOf := by
        simp only [edgeFold, List.foldl_cons, hcf, Bool.false_eq_true, if_false]
      rw [hfold]
      simp only [Prod.mk.injEq, hcf, Bool.false_eq_true, if_false]
      refine ⟨rfl, by omega, by omega⟩

theorem build_subtopics_eq (course : String) (ss : List SubtopicIn) (st : GraphState) :
    build_subtopics_transactional course ss st
      = ({ st with
            subtopicNodes := applyWrites st.subtopicNodes (subtopicWrites course ss),
            prereqOf := (edgeFold (prCond course st.topicNodes) (prEdge course) ss st.prereqOf) },
         ss.length, ss.countP (prCond course st.topicNodes)) := by
  unfold build_subtopics_transactional
  rw [subtopics_fold_eq]
  simp

/-- `build_curriculum_graph` in closed form: node stores are write replays,
relationship lists are conditional MERGE folds, and the created counters
are the input lengths (the node MERGEs always return a row). -/
theorem build_curriculum_graph_eq (course : String) (ms : List ModuleIn)
    (ts : List TopicIn) (ss : List SubtopicIn) (st : GraphState) :
    build_curriculum_graph course ms ts ss st
      = ({ moduleNodes := applyWrites st.moduleNodes (moduleWrites course ms),
           topicNodes := applyWrites st.topicNodes (topicWrites course ts),
           subtopicNodes := applyWrites st.subtopicNodes (subtopicWrites course ss),
           precedes := (edgeFold
             (precCond course (applyWrites st.moduleNodes (moduleWrites course ms)))
             (precEdge course) (ms.zip ms.tail) st.precedes),
           hasTopic := (edgeFold
             (htCond course (applyWrites st.moduleNodes (moduleWrites course ms)))
             (htEdge course) ts st.hasTopic),
           prereqOf := (edgeFold
             (prCond course (applyWrites st.topicNodes (topicWrites course ts)))
             (prEdge course) ss st.prereqOf) },
         { success := true
           course := course
           modules_created := ms.length
           topics_created := ts.length
           subtopics_created := ss.length
           precedes_relationships := if ms.length > 1 then ms.length - 1 else 0
           has_topic_relationships := ts.countP
             (htCond course (applyWrites st.moduleNodes (moduleWrites course ms)))
           prerequisite_of_relationships := ss.countP
             (prCond course (applyWrites st.topicNodes (topicWrites course ts))) }) := by
  show ((build_subtopics_transactional course ss
          (build_topics_transactional course ts
            (build_modules_transactional course ms st).1).1).1,
        ({ success := true
           course := course
           modules_created := (build_modules_transactional course ms st).2
           topics_created := (build_topics_transactional course ts
             (build_modules_transactional course ms st).1).2.1
           subtopics_created := (build_subtopics_transactional course ss
             (build_topics_transactional course ts
               (build_modules_transactional course ms st).1).1).2.1
           precedes_relationships := if ms.length > 1 then ms.length - 1 else 0
           has_topic_relationships := (build_topics_transactional course ts
             (build_modules_transactional course ms st).1).2.2
           prerequisite_of_relationships := (build_subtopics_transactional course ss
             (build_topics_transactional course ts
               (build_modules_transactional course ms st).1).1).2.2 } : BuildSummary)) = _
  rw [build_modules_eq, build_topics_eq, build_subtopics_eq]

/-- C1 (amended): rebuilding a course from identical input is a no-op on
the graph state and returns the same summary as the first run, whose
created counters equal the input list lengths (not zero) because
`MERGE ... RETURN` produces a row for matched nodes too. In particular
the edge sets after the second run equal those after the first. -/
theorem build_curriculum_graph_idempotent (course : String) (ms : List ModuleIn)
    (ts : List TopicIn) (ss : List SubtopicIn) :
    build_curriculum_graph course ms ts ss
        (build_curriculum_graph course ms ts ss GraphState.empty).1
      = build_curriculum_graph course ms ts ss GraphState.empty
    ∧ (build_curriculum_graph course ms ts ss GraphState.empty).2.modules_created = ms.length
    ∧ (build_curriculum_graph course ms ts ss GraphState.empty).2.topics_created = ts.length
    ∧ (build_curriculum_graph course ms ts ss GraphState.empty).2.subtopics_created = ss.length := by
  rw [build_curriculum_graph_eq course ms ts ss GraphState.empty]
  rw [build_curriculum_graph_eq]
  have hm : applyWrites
      (applyWrites (GraphState.empty.moduleNodes) (moduleWrites course ms)) (moduleWrites course ms)
      = applyWrites GraphState.empty.moduleNodes (moduleWrites course ms) :=
    applyWrites_idem _ _ (by simp [GraphState.empty])
  have ht : applyWrites
      (applyWrites (GraphState.empty.topicNodes) (topicWrites course ts)) (topicWrites course ts)
      = applyWrites GraphState.empty.topicNodes (topicWrites course ts) :=
    applyWrites_idem _ _ (by simp [GraphState.empty])
  have hs : applyWrites
      (applyWrites (GraphState.empty.subtopicNodes) (subtopicWrites course ss)) (subtopicWrites course ss)
      = applyWrites GraphState.empty.subtopicNodes (subtopicWrites course ss) :=
    applyWrites_idem _ _ (by simp [GraphState.empty])
  refine ⟨?_, rfl, rfl, rfl⟩
  dsimp only
  rw [hm, ht, hs]
  rw [edgeFold_stable (precCond course (applyWrites GraphState.empty.moduleNodes (moduleWrites course ms)))
        (precEdge course) (ms.zip ms.tail) _
        (fun p hp hc => edgeFold_mem_all _ _ _ _ p hp hc)]
  rw [edgeFold_stable (htCond course (applyWrites GraphState.empty.moduleNodes (moduleWrites course ms)))
        (htEdge course) ts _
        (fun t htm hc => edgeFold_mem_all _ _ _ _ t htm hc)]
  rw [edgeFold_stable (prCond course (applyWrites GraphState.empty.topicNodes (topicWrites course ts)))
        (prEdge course) ss _
        (fun s hsm hc => edgeFold_mem_all _ _ _ _ s hsm hc)]

/-- C1 counterexample: with a one-module input, the second identical run
reports `modules_created = 1`, not `0`. -/
theorem build_second_run_modules_created_nonzero :
    (build_curriculum_graph "c" [⟨"m1", "M1", 1⟩] [] []
        (build_curriculum_graph "c" [⟨"m1", "M1", 1⟩] [] [] GraphState.empty).1).2.modules_created
      = 1
    ∧ (build_curriculum_graph "c" [⟨"m1", "M1", 1⟩] [] []
        (build_curriculum_graph "c" [⟨"m1", "M1", 1⟩] [] [] GraphState.empty).1).2.modules_created
      ≠ 0 := by
  constructor
  · rfl
  · decide

/-! ## Course scoping of the builder (C9) -/

theorem mergeEdge_mem_inv (es : List GraphEdge) (e e' : GraphEdge)
    (h : e' ∈ mergeEdge es e) : e' ∈ es ∨ e' = e := by
  unfold mergeEdge at h
  by_cases hm : e ∈ es
  · rw [if_pos hm] at h; exact Or.inl h
  · rw [if_neg hm] at h
    rcases List.mem_append.mp h with h1 | h1
    · exact Or.inl h1
    · simp only [List.mem_singleton] at h1
      exact Or.inr h1

theorem edgeFold_mem_inv {X : Type} (cond : X → Bool) (edge : X → GraphEdge)
    (xs : List X) : ∀ (es : List GraphEdge) (e : GraphEdge),
    e ∈ edgeFold cond edge xs es →
    e ∈ es ∨ ∃ x ∈ xs, cond x = true ∧ e = edge x := by
  induction xs with
  | nil => intro es e h; exact Or.inl h
  | cons x xs ih =>
    intro es e h
    simp only [edgeFold, List.foldl_cons] at h
    by_cases hc : cond x = true
    · rw [if_pos hc] at h
      rcases ih _ e h with h1 | ⟨y, hy, hcy, hey⟩
      · rcases mergeEdge_mem_inv _ _ _ h1 with h2 | h2
        · exact Or.inl h2
        · exact Or.inr ⟨x, by simp, hc, h2⟩
      · exact Or.inr ⟨y, by simp [hy], hcy, hey⟩
    · rw [if_neg hc] at h
      rcases ih _ e h with h1 | ⟨y, hy, hcy, hey⟩
      · exact Or.inl h1
      · exact Or.inr ⟨y, by simp [hy], hcy, hey⟩

theorem applyWrites_keys_subset {K A : Type} [DecidableEq K]
    (ws : List (K × A)) : ∀ (l : List (K × A)) (k : K),
    k ∈ (applyWrites l ws).map (·.1) → k ∈ l.map (·.1) ∨ k ∈ ws.map (·.1) := by
  induction ws with
  | nil => intro l k h; exact Or.inl h
  | cons kv ws ih =>
    intro l k h
    rw [applyWrites_cons] at h
    rcases ih _ k h with h1 | h1
    · by_cases hh : dictHas l kv.1
      · rw [dictUpsert_keys_of_has _ _ _ hh] at h1
        exact Or.inl h1
      · rw [dictUpsert_keys_of_not_has _ _ _ (by simpa using hh)] at h1
        rcases List.mem_append.mp h1 with h2 | h2
        · exact Or.inl h2
        · simp only [List.mem_singleton] at h2
          exact Or.inr (by simp [h2])
    · exact Or.inr (by simp [h1])

/-- C9: every node written by `build_curriculum_graph` is keyed by
`(id, course)` for the given course, and every PRECEDES, HAS_TOPIC and
PREREQUISITE_OF edge it writes joins two existing nodes of that same
course: the builder never creates a cross-course edge. -/
theorem build_curriculum_graph_course_scoped (course : String) (ms : List ModuleIn)
    (ts : List TopicIn) (ss : List SubtopicIn) :
    (∀ kv ∈ (build_curriculum_graph course ms ts ss GraphState.empty).1.moduleNodes,
        kv.1.2 = course)
    ∧ (∀ kv ∈ (build_curriculum_graph course ms ts ss GraphState.empty).1.topicNodes,
        kv.1.2 = course)
    ∧ (∀ kv ∈ (build_curriculum_graph course ms ts ss GraphState.empty).1.subtopicNodes,
        kv.1.2 = course)
    ∧ (∀ e ∈ (build_curriculum_graph course ms ts ss GraphState.empty).1.precedes,
        e.src.2 = course ∧ e.dst.2 = course
        ∧ dictHas (build_curriculum_graph course ms ts ss GraphState.empty).1.moduleNodes e.src
        ∧ dictHas (build_curriculum_graph course ms ts ss GraphState.empty).1.moduleNodes e.dst)
    ∧ (∀ e ∈ (build_curriculum_graph course ms ts ss GraphState.empty).1.hasTopic,
        e.src.2 = course ∧ e.dst.2 = course
        ∧ dictHas (build_curriculum_graph course ms ts ss GraphState.empty).1.moduleNodes e.src
        ∧ dictHas (build_curriculum_graph course ms ts ss GraphState.empty).1.topicNodes e.dst)
    ∧ (∀ e ∈ (build_curriculum_graph course ms ts ss GraphState.empty).1.prereqOf,
        e.src.2 = course ∧ e.dst.2 = course
        ∧ dictHas (build_curriculum_graph course ms ts ss GraphState.empty).1.subtopicNodes e.src
        ∧ dictHas (build_curriculum_graph course ms ts ss GraphState.empty).1.topicNodes e.dst) := by
  rw [build_curriculum_graph_eq]
  dsimp only
  have hkeyM : ∀ kv ∈ applyWrites GraphState.empty.moduleNodes (moduleWrites course ms),
      kv.1.2 = course := by
    intro kv hkv
    rcases applyWrites_keys_subset _ _ kv.1 (List.mem_map_of_mem _ hkv) with h | h
    · simp [GraphState.empty] at h
    · rcases List.mem_map.mp h with ⟨w, hw, hwe⟩
      rcases List.mem_map.mp hw with ⟨m, _, hme⟩
      rw [← hwe, ← hme]
  have hkeyT : ∀ kv ∈ applyWrites GraphState.empty.topicNodes (topicWrites course ts),
      kv.1.2 = course := by
    intro kv hkv
    rcases applyWrites_keys_subset _ _ kv.1 (List.mem_map_of_mem _ hkv) with h | h
    · simp [GraphState.empty] at h
    · rcases List.mem_map.mp h with ⟨w, hw, hwe⟩
      rcases List.mem_map.mp hw with ⟨t, _, hte⟩
      rw [← hwe, ← hte]
  have hkeyS : ∀ kv ∈ applyWrites GraphState.empty.subtopicNodes (subtopicWrites course ss),
      kv.1.2 = course := by
    intro kv hkv
    rcases applyWrites_keys_subset _ _ kv.1 (List.mem_map_of_mem _ hkv) with h | h
    · simp [GraphState.empty] at h
    · rcases List.mem_map.mp h with ⟨w, hw, hwe⟩
      rcases List.mem_map.mp hw with ⟨s, _, hse⟩
      rw [← hwe, ← hse]
  refine ⟨hkeyM, hkeyT, hkeyS, ?_, ?_, ?_⟩
  · intro e he
    rcases edgeFold_mem_inv _ _ _ _ e he with h | ⟨p, _, hc, hee⟩
    · simp [GraphState.empty] at h
    · rcases Bool.and_eq_true_iff.mp hc with ⟨h1, h2⟩
      subst hee
      exact ⟨rfl, rfl, h1, h2⟩
  · intro e he
    rcases edgeFold_mem_inv _ _ _ _ e he with h | ⟨t, htm, hc, hee⟩
    · simp [GraphState.empty] at h
    · rcases Bool.and_eq_true_iff.mp hc with ⟨_, h2⟩
      subst hee
      refine ⟨rfl, rfl, h2, ?_⟩
      exact dictHas_applyWrites_of_mem _ _ _
        (by
          simp only [topicWrites, List.map_map, List.mem_map]
          exact ⟨t, htm, rfl⟩)
  · intro e he
    rcases edgeFold_mem_inv _ _ _ _ e he with h | ⟨s, hsm, hc, hee⟩
    · simp [GraphState.empty] at h
    · rcases Bool.and_eq_true_iff.mp hc with ⟨_, h2⟩
      subst hee
      refine ⟨rfl, rfl, ?_, h2⟩
      exact dictHas_applyWrites_of_mem _ _ _
        (by
          simp only [subtopicWrites, List.map_map, List.mem_map]
          exact ⟨s, hsm, rfl⟩)

/-! ## parse_unified_csv (curriculum_graph_handler.py lines 151-295)

A unified table is modeled after column resolution: which of the
optional columns were found, and the raw cell contents per row (a
missing optional column makes the corresponding flag false). -/

structure URow where
  module : String
  lecture : String
  topic : String
  subtopics : String
deriving DecidableEq

structure UnifiedTable where
  hasModuleCol : Bool
  hasLectureCol : Bool
  hasSubtopicCol : Bool
  rows : List URow
deriving DecidableEq

def digitsToNat (ds : List Char) : Nat :=
  ds.foldl (fun n c => n * 10 + (c.toNat - '0'.toNat)) 0

/-- `re.search(r'\d+', s)` followed by `int(...)`: the first maximal
digit run, as a number. -/
def firstNumber : List Char → Option Int
  | [] => none
  | c :: rest =>
    if c.isDigit then some (Int.ofNat (digitsToNat ((c :: rest).takeWhile Char.isDigit)))
    else firstNumber rest

def extract_lecture_number (s : String) : Option Int :=
  firstNumber s.toList

/-- Accumulator of the `parse_unified_csv` row loop: the module dict
keyed by raw module name, the topics list and the pre-dedup subtopics
list. -/
structure ParseAcc where
  modulesDict : List (String × ModuleIn)
  topics : List TopicIn
  rawSubtopics : List SubtopicIn
deriving DecidableEq

/-- One iteration of the row loop (lines 224-277): record the module on
first appearance, skip the row if the topic cell is blank, otherwise
append the topic and the split subtopic cells. -/
def parseUnifiedStep (hasModuleCol hasLectureCol hasSubtopicCol : Bool)
    (acc : ParseAcc × Nat) (row : URow) : ParseAcc × Nat :=
  let rowNum := acc.2
  let a := acc.1
  let moduleName := if hasModuleCol then strStrip row.module else "Module " ++ toString rowNum
  let a1 :=
    if moduleName ≠ "" ∧ ¬ (dictHas a.modulesDict moduleName = true) then
      { a with modulesDict := a.modulesDict ++
          [(moduleName, ⟨normalize_id moduleName, moduleName, Int.ofNat (a.modulesDict.length + 1)⟩)] }
    else a
  let topicName := strStrip row.topic
  if topicName = "" then (a1, rowNum + 1)
  else
    let topicId := normalize_id topicName
    let moduleId := if moduleName ≠ "" then some (normalize_id moduleName) else none
    let lectureNum :=
      if hasLectureCol then
        (if row.lecture ≠ "" then extract_lecture_number row.lecture else none)
      else none
    let a2 := { a1 with topics := a1.topics ++ [⟨topicId, topicName, moduleId, lectureNum⟩] }
    let a3 :=
      if hasSubtopicCol then
        (if strStrip row.subtopics ≠ "" then
          { a2 with rawSubtopics := a2.rawSubtopics ++
              ((strSplitComma (strStrip row.subtopics)).filterMap (fun piece =>
                if strStrip piece ≠ "" then
                  some (⟨normalize_id (strStrip piece), strStrip piece, topicId⟩ : SubtopicIn)
                else none)) }
        else a2)
      else a2
    (a3, rowNum + 1)

/-- The row loop of `parse_unified_csv` (`enumerate(reader, start=2)`). -/
def parseUnifiedRaw (tbl : UnifiedTable) : ParseAcc :=
  (tbl.rows.foldl
    (parseUnifiedStep tbl.hasModuleCol tbl.hasLectureCol tbl.hasSubtopicCol)
    (⟨[], [], []⟩, 2)).1

/-- The subtopic dedup loop (lines 282-288): keep the first entry per id. -/
def dedupSubtopics : List String → List SubtopicIn → List SubtopicIn
  | _, [] => []
  | seen, st :: rest =>
    if st.id ∈ seen then dedupSubtopics seen rest
    else st :: dedupSubtopics (st.id :: seen) rest

/-- `parse_unified_csv`: modules sorted by order of first appearance,
topics in row order, subtopics deduplicated globally by id. -/
def parse_unified_csv (tbl : UnifiedTable) :
    List ModuleIn × List TopicIn × List SubtopicIn :=
  let acc := parseUnifiedRaw tbl
  (sortStable (fun m : ModuleIn => m.order) (acc.modulesDict.map (·.2)),
   acc.topics,
   dedupSubtopics [] acc.rawSubtopics)

/-- `ingest_from_unified_csv`: parse, then build. -/
def ingest_from_unified_csv (course : String) (tbl : UnifiedTable)
    (st : GraphState) : GraphState × BuildSummary :=
  let p := parse_unified_csv tbl
  build_curriculum_graph course p.1 p.2.1 p.2.2 st

/-! ## Properties of the subtopic dedup and the parsed lists (C2) -/

theorem dedupSubtopics_filter_seen (l : List SubtopicIn) :
    ∀ (seen : List String) (i : String), i ∈ seen →
    (dedupSubtopics seen l).filter (fun s => decide (s.id = i)) = [] := by
  induction l with
  | nil => intro seen i _; rfl
  | cons st rest ih =>
    intro seen i hi
    by_cases hst : st.id ∈ seen
    · simp only [dedupSubtopics, if_pos hst]
      exact ih seen i hi
    · simp only [dedupSubtopics, if_neg hst]
      have hne : ¬ (st.id = i) := fun he => hst (he ▸ hi)
      simp only [List.filter, hne, decide_eq_true_eq, if_neg]
      simpa [List.filter, hne] using ih (st.id :: seen) i (by simp [hi])

theorem dedupSubtopics_filter_find (l : List SubtopicIn) :
    ∀ (seen : List String) (i : String), ¬ (i ∈ seen) →
    (dedupSubtopics seen l).filter (fun s => decide (s.id = i))
      = (match l.find? (fun s => decide (s.id = i)) with
         | some e => [e]
         | none => []) := by
  induction l with
  | nil => intro seen i _; rfl
  | cons st rest ih =>
    intro seen i hi
    by_cases hst : st.id ∈ seen
    · have hne : ¬ (st.id = i) := fun he => hi (he ▸ hst)
      simp only [dedupSubtopics, if_pos hst, List.find?]
      rw [ih seen i hi]
      simp [hne]
    · simp only [dedupSubtopics, if_neg hst]
      by_cases heq : st.id = i
      · subst heq
        have h1 : (dedupSubtopics (st.id :: seen) rest).filter
            (fun s => decide (s.id = st.id)) = [] :=
          dedupSubtopics_filter_seen rest (st.id :: seen) st.id (by simp)
        simp [List.filter_cons, List.find?, h1]
      · have h1 : decide (st.id = i) = false := by simp [heq]
        have h2 : ¬ (i ∈ st.id :: seen) := by
          simp only [List.mem_cons, not_or]
          exact ⟨fun he => heq he.symm, hi⟩
        simp only [List.filter_cons, List.find?, h1, Bool.false_eq_true, if_false]
        exact ih (st.id :: seen) i h2

theorem dedupSubtopics_mem (l : List SubtopicIn) :
    ∀ (seen : List String) (s : SubtopicIn), s ∈ dedupSubtopics seen l → s ∈ l := by
  induction l with
  | nil => intro seen s h; simp [dedupSubtopics] at h
  | cons st rest ih =>
    intro seen s h
    by_cases hst : st.id ∈ seen
    · simp only [dedupSubtopics, if_pos hst] at h
      exact List.mem_cons_of_mem _ (ih _ _ h)
    · simp only [dedupSubtopics, if_neg hst] at h
      rcases List.mem_cons.mp h with h1 | h1
      · exact h1 ▸ List.mem_cons_self _ _
      · exact List.mem_cons_of_mem _ (ih _ _ h1)

theorem dedupSubtopics_ids_nodup (l : List SubtopicIn) :
    ∀ (seen : List String),
    ((dedupSubtopics seen l).map (·.id)).Nodup
    ∧ (∀ i ∈ (dedupSubtopics seen l).map (·.id), ¬ (i ∈ seen)) := by
  induction l with
  | nil => intro seen; simp [dedupSubtopics]
  | cons st rest ih =>
    intro seen
    by_cases hst : st.id ∈ seen
    · simpa only [dedupSubtopics, if_pos hst] using ih seen
    · simp only [dedupSubtopics, if_neg hst, List.map_cons, List.nodup_cons]
      rcases ih (st.id :: seen) with ⟨hnd, hnm⟩
      refine ⟨⟨?_, hnd⟩, ?_⟩
      · intro hmem
        exact hnm st.id hmem (by simp)
      · intro i hi
        rcases List.mem_cons.mp hi with h1 | h1
        · exact h1 ▸ hst
        · intro hmem
          exact hnm i h1 (by simp [hmem])

/-- One parse step appends to the topics and pre-dedup subtopic lists,
and every appended subtopic references the appended topic. -/
theorem parseUnifiedStep_components (a b c : Bool) (acc : ParseAcc × Nat) (row : URow) :
    ∃ (newTopics : List TopicIn) (newSubs : List SubtopicIn),
      (parseUnifiedStep a b c acc row).1.topics = acc.1.topics ++ newTopics
      ∧ (parseUnifiedStep a b c acc row).1.rawSubtopics = acc.1.rawSubtopics ++ newSubs
      ∧ (∀ e ∈ newSubs, e.topicId ∈ newTopics.map (·.id)) := by
  unfold parseUnifiedStep
  by_cases ht : strStrip row.topic = ""
  · refine ⟨[], [], ?_, ?_, by simp⟩ <;>
      (simp only [ht, if_pos]; (repeat' split) <;> simp)
  · refine ⟨[⟨normalize_id (strStrip row.topic), strStrip row.topic,
        (if (if a then strStrip row.module else "Module " ++ toString acc.2) ≠ ""
         then some (normalize_id (if a then strStrip row.module else "Module " ++ toString acc.2))
         else none),
        (if b then (if row.lecture ≠ "" then extract_lecture_number row.lecture else none)
         else none)⟩],
      (if c then
        (if strStrip row.subtopics ≠ "" then
          ((strSplitComma (strStrip row.subtopics)).filterMap (fun piece =>
            if strStrip piece ≠ "" then
              some (⟨normalize_id (strStrip piece), strStrip piece, normalize_id (strStrip row.topic)⟩ : SubtopicIn)
            else none))
         else [])
       else []), ?_, ?_, ?_⟩
    · simp only [ht, if_neg, not_false_iff]
      (repeat' split) <;> simp
    · simp only [ht, if_neg, not_false_iff]
      (repeat' split) <;> simp
    · intro e he
      split at he
      · split at he
        · rcases List.mem_filterMap.mp he with ⟨piece, _, hpe⟩
          split at hpe
          · rw [← Option.some.inj hpe]
            simp
          · simp at hpe
        · simp at he
      · simp at he

theorem parse_foldl_topic_inv (a b c : Bool) (rows : List URow) :
    ∀ (acc : ParseAcc × Nat),
    (∀ e ∈ acc.1.rawSubtopics, e.topicId ∈ acc.1.topics.map (·.id)) →
    (∀ e ∈ (rows.foldl (parseUnifiedStep a b c) acc).1.rawSubtopics,
      e.topicId ∈ (rows.foldl (parseUnifiedStep a b c) acc).1.topics.map (·.id)) := by
  induction rows with
  | nil => intro acc h; exact h
  | cons row rows ih =>
    intro acc h
    simp only [List.foldl_cons]
    apply ih
    rcases parseUnifiedStep_components a b c acc row with ⟨nt, ns, h1, h2, h3⟩
    intro e he
    rw [h2] at he
    rw [h1, List.map_append]
    rcases List.mem_append.mp he with hh | hh
    · exact List.mem_append.mpr (Or.inl (h e hh))
    · exact List.mem_append.mpr (Or.inr (h3 e hh))

theorem parseUnifiedRaw_topic_inv (tbl : UnifiedTable) :
    ∀ e ∈ (parseUnifiedRaw tbl).rawSubtopics,
      e.topicId ∈ (parseUnifiedRaw tbl).topics.map (·.id) := by
  unfold parseUnifiedRaw
  exact parse_foldl_topic_inv _ _ _ _ _ (by simp)

theorem filter_map_factor {A B : Type} (f : A → B) (p : B → Bool) (l : List A) :
    (l.map f).filter p = (l.filter (fun x => p (f x))).map f := by
  induction l with
  | nil => rfl
  | cons x xs ih =>
    simp only [List.map_cons, List.filter_cons]
    by_cases h : p (f x) = true
    · rw [if_pos h, if_pos h, List.map_cons, ih]
    · rw [if_neg h, if_neg h, ih]

theorem mergeEdge_filter (es : List GraphEdge) (e : GraphEdge) (p : GraphEdge → Bool) :
    (mergeEdge es e).filter p
      = if e ∈ es then es.filter p
        else es.filter p ++ (if p e then [e] else []) := by
  unfold mergeEdge
  by_cases hm : e ∈ es
  · rw [if_pos hm, if_pos hm]
  · rw [if_neg hm, if_neg hm, List.filter_append]
    by_cases hp : p e = true <;> simp [List.filter, hp]

theorem edgeFold_filter_stable {X : Type} (cond : X → Bool) (edge : X → GraphEdge)
    (p : GraphEdge → Bool) (e0 : GraphEdge) (xs : List X) :
    ∀ es, es.filter p = [e0] →
    (∀ x ∈ xs, p (edge x) = true → edge x = e0) →
    (edgeFold cond edge xs es).filter p = [e0] := by
  induction xs with
  | nil => intro es h _; exact h
  | cons x xs ih =>
    intro es h hx
    simp only [edgeFold, List.foldl_cons]
    by_cases hc : cond x = true
    · rw [if_pos hc]
      by_cases hm : edge x ∈ es
      · apply ih
        · rw [mergeEdge_filter, if_pos hm]; exact h
        · exact fun y hy hpy => hx y (by simp [hy]) hpy
      · by_cases hp : p (edge x) = true
        · exfalso
          have he0 : edge x = e0 := hx x (by simp) hp
          have : e0 ∈ es.filter p := by rw [h]; simp
          exact hm (he0 ▸ List.mem_of_mem_filter this)
        · apply ih
          · rw [mergeEdge_filter, if_neg hm]
            have : ¬ (p (edge x) = true) := hp
            simp [h, this]
          · exact fun y hy hpy => hx y (by simp [hy]) hpy
    · rw [if_neg hc]
      exact ih es h (fun y hy hpy => hx y (by simp [hy]) hpy)

theorem edgeFold_filter_unique {X : Type} (cond : X → Bool) (edge : X → GraphEdge)
    (p : GraphEdge → Bool) (x0 : X) (xs : List X) :
    ∀ es, es.filter p = [] →
    (∀ x ∈ xs, p (edge x) = true → x = x0) →
    x0 ∈ xs → cond x0 = true → p (edge x0) = true →
    (edgeFold cond edge xs es).filter p = [edge x0] := by
  induction xs with
  | nil => intro es _ _ hmem; simp at hmem
  | cons x xs ih =>
    intro es hes hx hmem hc0 hp0
    simp only [edgeFold, List.foldl_cons]
    by_cases hp : p (edge x) = true
    · have hxx0 : x = x0 := hx x (by simp) hp
      subst hxx0
      rw [if_pos hc0]
      have hm : ¬ (edge x ∈ es) := by
        intro hm
        have : edge x ∈ es.filter p := List.mem_filter.mpr ⟨hm, hp⟩
        rw [hes] at this
        simp at this
      apply edgeFold_filter_stable
      · rw [mergeEdge_filter, if_neg hm, hes, hp]
        simp
      · exact fun y hy hpy => congrArg edge (hx y (by simp [hy]) hpy)
    · have hxne : ¬ (x = x0) := fun he => hp (he ▸ hp0)
      have hmem' : x0 ∈ xs := by
        rcases List.mem_cons.mp hmem with h1 | h1
        · exact absurd h1.symm hxne
        · exact h1
      by_cases hc : cond x = true
      · rw [if_pos hc]
        apply ih
        · rw [mergeEdge_filter]
          by_cases hm : edge x ∈ es
          · rw [if_pos hm]; exact hes
          · rw [if_neg hm, hes]
            have : ¬ (p (edge x) = true) := hp
            simp [this]
        · exact fun y hy hpy => hx y (by simp [hy]) hpy
        · exact hmem'
        · exact hc0
        · exact hp0
      · rw [if_neg hc]
        exact ih es hes (fun y hy hpy => hx y (by simp [hy]) hpy) hmem' hc0 hp0

/-- C2 (amended): when the same normalized subtopic id appears in the
subtopic cells of two rows with different topics, the pipeline creates
exactly one Subtopic node for it, but links it with a PREREQUISITE_OF
edge only to the topic of its first occurrence: the global dedup by id
keeps only the first entry, dropping the later topic links. -/
theorem dup_subtopic_one_node_first_link
    (course sid t1 : String) (tbl : UnifiedTable) (first : SubtopicIn)
    (hf : (parseUnifiedRaw tbl).rawSubtopics.find? (fun s => decide (s.id = sid)) = some first)
    (hft : first.topicId = t1)
    (hsecond : ∃ e ∈ (parseUnifiedRaw tbl).rawSubtopics, e.id = sid ∧ e.topicId ≠ t1)
    (ht1 : t1 ≠ "") :
    ((ingest_from_unified_csv course tbl GraphState.empty).1.subtopicNodes.filter
        (fun kv => decide (kv.1 = (sid, course)))).length = 1
    ∧ (ingest_from_unified_csv course tbl GraphState.empty).1.prereqOf.filter
        (fun e => decide (e.src = (sid, course)))
      = [⟨(sid, course), (t1, course)⟩] := by
  have hF1 : (dedupSubtopics [] (parseUnifiedRaw tbl).rawSubtopics).filter
      (fun s => decide (s.id = sid)) = [first] := by
    rw [dedupSubtopics_filter_find _ [] sid (by simp), hf]
  have hF2 : first ∈ dedupSubtopics [] (parseUnifiedRaw tbl).rawSubtopics := by
    have hmem : first ∈ (dedupSubtopics [] (parseUnifiedRaw tbl).rawSubtopics).filter
        (fun s => decide (s.id = sid)) := by rw [hF1]; simp
    exact List.mem_of_mem_filter hmem
  have hF3 : first.id = sid := by
    have h := List.find?_some hf
    simpa using h
  have hF4 : first ∈ (parseUnifiedRaw tbl).rawSubtopics := List.mem_of_find?_eq_some hf
  have hF5 : t1 ∈ (parseUnifiedRaw tbl).topics.map (·.id) :=
    hft ▸ parseUnifiedRaw_topic_inv tbl first hF4
  have hing : ingest_from_unified_csv course tbl GraphState.empty
      = build_curriculum_graph course
          (sortStable (fun m : ModuleIn => m.order) ((parseUnifiedRaw tbl).modulesDict.map (·.2)))
          ((parseUnifiedRaw tbl).topics)
          (dedupSubtopics [] (parseUnifiedRaw tbl).rawSubtopics)
          GraphState.empty := rfl
  rw [hing, build_curriculum_graph_eq]
  dsimp only
  have hnodup : ((dedupSubtopics [] (parseUnifiedRaw tbl).rawSubtopics).map (·.id)).Nodup :=
    (dedupSubtopics_ids_nodup _ []).1
  constructor
  · have hkeys : ((subtopicWrites course
        (dedupSubtopics [] (parseUnifiedRaw tbl).rawSubtopics)).map (·.1)).Nodup := by
      have h2 : (((dedupSubtopics [] (parseUnifiedRaw tbl).rawSubtopics).map (·.id)).map
          (fun i => ((i, course) : NodeKey))).Nodup :=
        hnodup.map (fun i j hij => congrArg Prod.fst hij)
      rw [List.map_map] at h2
      have heq : ((subtopicWrites course
          (dedupSubtopics [] (parseUnifiedRaw tbl).rawSubtopics)).map (·.1))
          = (dedupSubtopics [] (parseUnifiedRaw tbl).rawSubtopics).map
              (fun s => ((s.id, course) : NodeKey)) := by
        simp [subtopicWrites, List.map_map]
      rw [heq]
      exact h2
    have hsw : applyWrites GraphState.empty.subtopicNodes
        (subtopicWrites course (dedupSubtopics [] (parseUnifiedRaw tbl).rawSubtopics))
        = subtopicWrites course (dedupSubtopics [] (parseUnifiedRaw tbl).rawSubtopics) := by
      have hfresh : ∀ kv ∈ subtopicWrites course
          (dedupSubtopics [] (parseUnifiedRaw tbl).rawSubtopics),
          dictHas GraphState.empty.subtopicNodes kv.1 = false := fun kv _ => rfl
      rw [applyWrites_fresh _ _ hfresh hkeys]
      rfl
    rw [hsw]
    unfold subtopicWrites
    rw [filter_map_factor]
    rw [List.filter_congr (by
      intro s _
      show decide (((s.id, course) : NodeKey) = (sid, course)) = decide (s.id = sid)
      by_cases h : s.id = sid <;> simp [h])]
    rw [hF1]
    simp
  · have hcond : prCond course
        (applyWrites GraphState.empty.topicNodes
          (topicWrites course (parseUnifiedRaw tbl).topics)) first = true := by
      unfold prCond
      rw [hft]
      have hd : dictHas
          (applyWrites GraphState.empty.topicNodes
            (topicWrites course (parseUnifiedRaw tbl).topics)) (t1, course) = true := by
        apply dictHas_applyWrites_of_mem
        rcases List.mem_map.mp hF5 with ⟨t, htm, hte⟩
        have : ((topicWrites course (parseUnifiedRaw tbl).topics).map (·.1))
            = (parseUnifiedRaw tbl).topics.map (fun t => ((t.id, course) : NodeKey)) := by
          simp [topicWrites, List.map_map]
        rw [this]
        exact List.mem_map.mpr ⟨t, htm, by rw [hte]⟩
      rw [hd]
      simp [ht1]
    have huniq : ∀ s ∈ dedupSubtopics [] (parseUnifiedRaw tbl).rawSubtopics,
        (fun e => decide (e.src = ((sid, course) : NodeKey))) (prEdge course s) = true →
        s = first := by
      intro s hs hp
      have hsid : s.id = sid := by
        have := of_decide_eq_true hp
        exact congrArg Prod.fst this
      have : s ∈ (dedupSubtopics [] (parseUnifiedRaw tbl).rawSubtopics).filter
          (fun s => decide (s.id = sid)) :=
        List.mem_filter.mpr ⟨hs, by simp [hsid]⟩
      rw [hF1] at this
      simpa using this
    have hp0 : (fun e => decide (e.src = ((sid, course) : NodeKey))) (prEdge course first)
        = true := by
      simp [prEdge, hF3]
    have hmain := edgeFold_filter_unique
      (prCond course (applyWrites GraphState.empty.topicNodes
        (topicWrites course (parseUnifiedRaw tbl).topics)))
      (prEdge course)
      (fun e => decide (e.src = ((sid, course) : NodeKey)))
      first
      (dedupSubtopics [] (parseUnifiedRaw tbl).rawSubtopics)
      GraphState.empty.prereqOf
      rfl huniq hF2 hcond hp0
    rw [hmain]
    simp [prEdge, hF3, hft]

/-- Witness for the amended C2 at a concrete two-row table sharing
subtopic cell "S". -/
theorem dup_subtopic_one_node_first_link_witness :
    ((ingest_from_unified_csv "crs"
        ⟨true, true, true, [⟨"M1", "1", "T1", "S"⟩, ⟨"M1", "2", "T2", "S"⟩]⟩
        GraphState.empty).1.subtopicNodes.filter
        (fun kv => decide (kv.1 = ("s", "crs")))).length = 1
    ∧ (ingest_from_unified_csv "crs"
        ⟨true, true, true, [⟨"M1", "1", "T1", "S"⟩, ⟨"M1", "2", "T2", "S"⟩]⟩
        GraphState.empty).1.prereqOf.filter
        (fun e => decide (e.src = ("s", "crs")))
      = [⟨("s", "crs"), ("t1", "crs")⟩] :=
  dup_subtopic_one_node_first_link "crs" "s" "t1"
    ⟨true, true, true, [⟨"M1", "1", "T1", "S"⟩, ⟨"M1", "2", "T2", "S"⟩]⟩
    ⟨"s", "S", "t1"⟩
    (by decide)
    rfl
    ⟨⟨"s", "S", "t2"⟩, by decide, rfl, by decide⟩
    (by decide)

/-- C2 counterexample: subtopic "S" is shared by the rows of topics T1
and T2, both topics exist in the graph, yet the single Subtopic node is
linked only to T1 - there is no PREREQUISITE_OF edge to T2, so it is not
"linked twice". -/
theorem dup_subtopic_not_linked_twice :
    (⟨("s", "crs"), ("t1", "crs")⟩ : GraphEdge)
      ∈ (ingest_from_unified_csv "crs"
          ⟨true, true, true, [⟨"M1", "1", "T1", "S"⟩, ⟨"M1", "2", "T2", "S"⟩]⟩
          GraphState.empty).1.prereqOf
    ∧ ¬ ((⟨("s", "crs"), ("t2", "crs")⟩ : GraphEdge)
      ∈ (ingest_from_unified_csv "crs"
          ⟨true, true, true, [⟨"M1", "1", "T1", "S"⟩, ⟨"M1", "2", "T2", "S"⟩]⟩
          GraphState.empty).1.prereqOf)
    ∧ dictHas (ingest_from_unified_csv "crs"
          ⟨true, true, true, [⟨"M1", "1", "T1", "S"⟩, ⟨"M1", "2", "T2", "S"⟩]⟩
          GraphState.empty).1.topicNodes ("t2", "crs") = true := by
  refine ⟨by decide, by decide, by decide⟩

/-! ## traverse_curriculum and get_curriculum_visualization (C3)

The Cypher result rows (whose order Neo4j leaves unspecified apart from
ORDER BY) are modeled by enumerating the stores in insertion order, with
ORDER BY as a stable sort; COLLECT(DISTINCT ...) keeps the first
occurrence of each value. -/

structure SubEntry where
  id : String
  name : String
deriving DecidableEq

structure TopicEntry where
  id : String
  name : String
  subtopics : List SubEntry
deriving DecidableEq

structure ModuleEntry where
  id : String
  name : String
  order : Int
  topics : List TopicEntry
deriving DecidableEq

def dedupAux {A : Type} [DecidableEq A] (seen : List A) : List A → List A
  | [] => []
  | x :: rest => if x ∈ seen then dedupAux seen rest else x :: dedupAux (x :: seen) rest

/-- `COLLECT(DISTINCT ...)`: first occurrence of each value, in order. -/
def dedupList {A : Type} [DecidableEq A] (l : List A) : List A :=
  dedupAux [] l

/-- `traverse_curriculum`: modules of the course (toLower comparison),
ordered by `order`; per module its HAS_TOPIC topics; per topic the
subtopics with a PREREQUISITE_OF edge into it.  The Python null filters
(`t.get('id')`) correspond to collecting only actual matches. -/
def traverse_curriculum (course : String) (st : GraphState) : List ModuleEntry :=
  let cmods := st.moduleNodes.filter (fun kv => decide (strLower kv.1.2 = strLower course))
  let sorted := sortStable (fun kv : NodeKey × ModuleProps => kv.2.order) cmods
  sorted.map (fun kv =>
    let topicKeys := (st.hasTopic.filter (fun e => decide (e.src = kv.1))).map (·.dst)
    let topics := topicKeys.filterMap (fun tk =>
      (dictGet st.topicNodes tk).map (fun tp =>
        let subs := (st.prereqOf.filter (fun e => decide (e.dst = tk))).filterMap
          (fun e => (dictGet st.subtopicNodes e.src).map
            (fun sp => (⟨e.src.1, sp.name⟩ : SubEntry)))
        (⟨tk.1, tp.name, dedupList subs⟩ : TopicEntry)))
    (⟨kv.1.1, kv.2.name, kv.2.order, dedupList topics⟩ : ModuleEntry))

/-- Python `topic.get(key, [])` on the topic dicts emitted by
`traverse_curriculum`, whose list-valued key is `subtopics`: any other
key returns the default. -/
def TopicEntry.getListField (t : TopicEntry) (key : String) : List SubEntry :=
  if key = "subtopics" then t.subtopics else []

structure VisNode where
  id : String
  label : String
  ntype : String
  order : Option Int
  moduleId : Option String
  topicId : Option String
deriving DecidableEq

/-- An edge dict of the visualization; `src`/`dst` model the Python keys
`from`/`to`. -/
structure VisEdge where
  src : String
  dst : String
  etype : String
deriving DecidableEq

structure VisResult where
  course : String
  nodes : List VisNode
  edges : List VisEdge
  totalModules : Nat
  totalTopics : Nat
  totalSubtopics : Nat
  totalEdges : Nat
deriving DecidableEq

/-- The dead prerequisite loop of `get_curriculum_visualization` (the
code reads `topic.get('prerequisites', [])`, but the traverse emits the
key `subtopics`). -/
def visPrereqLoop (topicId : String) (prereqs : List SubEntry)
    (acc : List VisNode × List VisEdge) : List VisNode × List VisEdge :=
  prereqs.foldl (fun pacc p =>
    let pn := if pacc.1.any (fun n => decide (n.id = p.id)) then pacc.1
              else pacc.1 ++ [⟨p.id, p.name, "subtopic", none, none, some topicId⟩]
    (pn, pacc.2 ++ [⟨p.id, topicId, "PREREQUISITE_OF"⟩])) acc

/-- `get_curriculum_visualization` from course_pipeline.py: module and
topic nodes, PRECEDES edges between consecutive modules of the traverse
order, HAS_TOPIC edges, and the (dead) prerequisite branch. -/
def get_curriculum_visualization (course : String) (st : GraphState) : VisResult :=
  let curriculum := traverse_curriculum course st
  let res := curriculum.foldl
    (fun (acc : List VisNode × List VisEdge × Option String) m =>
      let nodes := acc.1 ++ [⟨m.id, m.name, "module", some m.order, none, none⟩]
      let edges := acc.2.1 ++ (match acc.2.2 with
        | some prevId => [⟨prevId, m.id, "PRECEDES"⟩]
        | none => [])
      let tres := m.topics.foldl
        (fun (tacc : List VisNode × List VisEdge) t =>
          let n1 := tacc.1 ++ [⟨t.id, t.name, "topic", none, some m.id, none⟩]
          let e1 := tacc.2 ++ [⟨m.id, t.id, "HAS_TOPIC"⟩]
          visPrereqLoop t.id (t.getListField "prerequisites") (n1, e1))
        (nodes, edges)
      (tres.1, tres.2, some m.id))
    (([], [], none) : List VisNode × List VisEdge × Option String)
  { course := course
    nodes := res.1
    edges := res.2.1
    totalModules := (res.1.filter (fun n => decide (n.ntype = "module"))).length
    totalTopics := (res.1.filter (fun n => decide (n.ntype = "topic"))).length
    totalSubtopics := (res.1.filter (fun n => decide (n.ntype = "subtopic"))).length
    totalEdges := res.2.1.length }

/-- C3 (code bug): for a course whose graph holds one module, one topic
and one PREREQUISITE_OF edge, the visualization export contains no
PREREQUISITE_OF edge and no subtopic node, although the graph has the
edge and `traverse_curriculum` reports the subtopic (under the key
`subtopics`, while the export reads `prerequisites`). -/
theorem visualization_drops_prerequisites :
    (build_curriculum_graph "c" [⟨"m", "M", 1⟩] [⟨"t", "T", some "m", none⟩]
        [⟨"s", "S", "t"⟩] GraphState.empty).1.prereqOf
      = [⟨("s", "c"), ("t", "c")⟩]
    ∧ traverse_curriculum "c"
        (build_curriculum_graph "c" [⟨"m", "M", 1⟩] [⟨"t", "T", some "m", none⟩]
          [⟨"s", "S", "t"⟩] GraphState.empty).1
      = [⟨"m", "M", 1, [⟨"t", "T", [⟨"s", "S"⟩]⟩]⟩]
    ∧ (get_curriculum_visualization "c"
        (build_curriculum_graph "c" [⟨"m", "M", 1⟩] [⟨"t", "T", some "m", none⟩]
          [⟨"s", "S", "t"⟩] GraphState.empty).1).edges.filter
        (fun e => decide (e.etype = "PREREQUISITE_OF")) = []
    ∧ (get_curriculum_visualization "c"
        (build_curriculum_graph "c" [⟨"m", "M", 1⟩] [⟨"t", "T", some "m", none⟩]
          [⟨"s", "S", "t"⟩] GraphState.empty).1).nodes.filter
        (fun n => decide (n.ntype = "subtopic")) = [] := by
  refine ⟨by decide, by decide, by decide, by decide⟩

/-! ## Column detection (C4) -/

/-- Header normalization used by both consumers:
`name.strip().lower().replace(' ', '_')`. -/
def normalizeFieldName (name : String) : String :=
  strReplaceChar ' ' '_' (strLower (strStrip name))

/-- `normalized_fields = {normalize(name): name for name in fieldnames}`:
a dict comprehension, so a duplicate normalized key keeps its first
position but the last original name. -/
def normalizedFields (fieldnames : List String) : List (String × String) :=
  fieldnames.foldl (fun d name => dictUpsert d (normalizeFieldName name) name) []

/-- `find_column` nested in `parse_unified_csv`
(curriculum_graph_handler.py lines 206-210). -/
def curriculum_find_column (nf : List (String × String)) : List String → Option String
  | [] => none
  | key :: rest =>
    match dictGet nf key with
    | some v => some v
    | none => curriculum_find_column nf rest

/-- `find_column` nested in `SyllabusQdrantLinker.load_syllabus`
(syllabus_qdrant_linker.py lines 138-142). -/
def linker_find_column (nf : List (String × String)) : List String → Option String
  | [] => none
  | key :: rest =>
    match dictGet nf key with
    | some v => some v
    | none => linker_find_column nf rest

def curriculum_module_keys : List String := ["module", "unit", "section"]
def curriculum_lecture_num_keys : List String :=
  ["lecture_number", "lecture", "order", "number", "lecture_no"]
def curriculum_topic_keys : List String :=
  ["lecture_topic", "topic", "title", "name", "lecture_title"]
def curriculum_subtopic_keys : List String :=
  ["subtopics", "subtopic", "prerequisites", "concepts", "sub_topics"]

def linker_module_keys : List String := ["module", "unit", "section"]
def linker_lecture_num_keys : List String :=
  ["lecture_number", "lecture_no", "lecture", "order", "number"]
def linker_topic_keys : List String :=
  ["lecture_topic", "topic", "title", "name", "lecture_title"]
def linker_subtopic_keys : List String :=
  ["subtopics", "subtopic", "concepts", "sub_topics", "prerequisites"]
def linker_resource_keys : List String :=
  ["resources", "resource", "materials", "refs", "references"]

/-- C4 counterexample: on the headers `["Lecture No", "Lecture"]` the
curriculum parser resolves the order field to `Lecture` while the
resource linker resolves it to `Lecture No`; similarly the subtopics
field diverges on `["Prerequisites", "Concepts"]`: identical headers do
not map to identical columns. -/
theorem find_column_order_disagreement :
    curriculum_find_column (normalizedFields ["Lecture No", "Lecture"])
      curriculum_lecture_num_keys = some "Lecture"
    ∧ linker_find_column (normalizedFields ["Lecture No", "Lecture"])
      linker_lecture_num_keys = some "Lecture No"
    ∧ ¬ (curriculum_find_column (normalizedFields ["Lecture No", "Lecture"])
          curriculum_lecture_num_keys
        = linker_find_column (normalizedFields ["Lecture No", "Lecture"])
          linker_lecture_num_keys)
    ∧ curriculum_find_column (normalizedFields ["Prerequisites", "Concepts"])
      curriculum_subtopic_keys = some "Prerequisites"
    ∧ linker_find_column (normalizedFields ["Prerequisites", "Concepts"])
      linker_subtopic_keys = some "Concepts" := by
  refine ⟨by decide, by decide, by decide, by decide, by decide⟩

/-- C4 (amended): both consumers run the identical first-match-wins
resolution over their own declared synonym lists; the module and topic
lists coincide, and the order and subtopics lists hold the same synonyms
but in different orders, so identical headers can resolve to different
columns for those two fields. -/
theorem find_column_shared_logic :
    (∀ (nf : List (String × String)) (keys : List String),
      curriculum_find_column nf keys = linker_find_column nf keys)
    ∧ (∀ (nf : List (String × String)) (keys : List String),
      curriculum_find_column nf keys = (keys.filterMap (fun k => dictGet nf k)).head?)
    ∧ curriculum_module_keys = linker_module_keys
    ∧ curriculum_topic_keys = linker_topic_keys
    ∧ curriculum_lecture_num_keys ≠ linker_lecture_num_keys
    ∧ curriculum_lecture_num_keys.Perm linker_lecture_num_keys
    ∧ curriculum_subtopic_keys ≠ linker_subtopic_keys
    ∧ curriculum_subtopic_keys.Perm linker_subtopic_keys := by
  refine ⟨?_, ?_, rfl, rfl, by decide, by decide, by decide, by decide⟩
  · intro nf keys
    induction keys with
    | nil => rfl
    | cons key rest ih =>
      simp only [curriculum_find_column, linker_find_column]
      cases dictGet nf key with
      | some v => rfl
      | none => exact ih
  · intro nf keys
    induction keys with
    | nil => rfl
    | cons key rest ih =>
      simp only [curriculum_find_column, List.filterMap_cons]
      cases dictGet nf key with
      | some v => rfl
      | none => exact ih

/-! ## The four-encoding read loop (C8)

All three parsers try `['utf-8-sig', 'utf-8', 'latin-1', 'cp1252']` in
order, keeping the first decode that does not raise UnicodeDecodeError.
The utf-8-sig, utf-8 and cp1252 codecs are arbitrary partial decoders
here; latin-1 is modeled exactly: it maps every byte b to the code point
U+00b and can never fail. -/

def latin1Decode (bytes : List (Fin 256)) : String :=
  ⟨bytes.map (fun b => Char.ofNat b.val)⟩

/-- The encoding loop shared by `parse_unified_csv`,
`SyllabusQdrantLinker.load_syllabus` and `parse_syllabus_csv`:
`content = None; for encoding in encodings_to_try: try ... break
except UnicodeDecodeError: continue`. -/
def tryEncodings (decodeUtf8Sig decodeUtf8 decodeCp1252 : List (Fin 256) → Option String)
    (bytes : List (Fin 256)) : Option String :=
  [decodeUtf8Sig, decodeUtf8, (fun bs => some (latin1Decode bs)), decodeCp1252].foldl
    (fun content dec =>
      match content with
      | some c => some c
      | none => dec bytes) none

/-- C8: whatever the utf-8-sig, utf-8 and cp1252 decoders do, the trial
always produces a content string, because latin-1 decodes any byte
sequence; the `content is None` branch that raises "Could not read CSV
file with any supported encoding" is unreachable for a readable file. -/
theorem tryEncodings_total
    (decodeUtf8Sig decodeUtf8 decodeCp1252 : List (Fin 256) → Option String)
    (bytes : List (Fin 256)) :
    (tryEncodings decodeUtf8Sig decodeUtf8 decodeCp1252 bytes).isSome = true
    ∧ ¬ (tryEncodings decodeUtf8Sig decodeUtf8 decodeCp1252 bytes = none) := by
  unfold tryEncodings
  simp only [List.foldl_cons, List.foldl_nil]
  cases decodeUtf8Sig bytes with
  | some c => simp
  | none =>
    cases decodeUtf8 bytes with
    | some c => simp
    | none => simp

/-! ## Resource Reference Parser (C6)

`SyllabusQdrantLinker._parse_resources` hand-compiled: the primary
pattern `(R\d+)\s*(?:([Cc]h(?:apter)?\.?\s*\d+)|([Ll]ec(?:ture)?\.?\s*\d+))?\s*(.*)?`
is anchored at the start (re.match, case-sensitive), and the fallback
`re.search(r'(R\d+)', part, re.IGNORECASE)` scans for the first
case-insensitive R-number. -/

def pyStripChars (l : List Char) : List Char :=
  ((l.dropWhile pyIsSpace).reverse.dropWhile pyIsSpace).reverse

/-- `re.sub(r'\s+', '', x)`. -/
def removeSpaces (l : List Char) : List Char :=
  l.filter (fun c => !(pyIsSpace c))

/-- The `\.?\s*\d+` tail of the chapter/lecture alternatives, with the
greedy optional dot; returns (consumed text, rest). -/
def matchDotSpaceDigits (l : List Char) : Option (List Char × List Char) :=
  let attempt := fun (l' : List Char) (pre : List Char) =>
    let sp := l'.takeWhile pyIsSpace
    let r1 := l'.dropWhile pyIsSpace
    let ds := r1.takeWhile Char.isDigit
    if ds.isEmpty then none
    else some (pre ++ sp ++ ds, r1.drop ds.length)
  match l with
  | '.' :: rest =>
    (match attempt rest ['.'] with
     | some r => some r
     | none => attempt l [])
  | _ => attempt l []

/-- `[Cc]h(?:apter)?\.?\s*\d+`, trying the greedy `apter` first. -/
def chapterAlt : List Char → Option (List Char × List Char)
  | c :: 'h' :: rest =>
    if c = 'C' ∨ c = 'c' then
      let withApter : Option (List Char × List Char) :=
        match rest with
        | 'a' :: 'p' :: 't' :: 'e' :: 'r' :: r2 =>
          (matchDotSpaceDigits r2).map
            (fun p => (c :: 'h' :: 'a' :: 'p' :: 't' :: 'e' :: 'r' :: p.1, p.2))
        | _ => none
      match withApter with
      | some r => some r
      | none => (matchDotSpaceDigits rest).map (fun p => (c :: 'h' :: p.1, p.2))
    else none
  | _ => none

/-- `[Ll]ec(?:ture)?\.?\s*\d+`, trying the greedy `ture` first. -/
def lectureAlt : List Char → Option (List Char × List Char)
  | c :: 'e' :: 'c' :: rest =>
    if c = 'L' ∨ c = 'l' then
      let withTure : Option (List Char × List Char) :=
        match rest with
        | 't' :: 'u' :: 'r' :: 'e' :: r2 =>
          (matchDotSpaceDigits r2).map
            (fun p => (c :: 'e' :: 'c' :: 't' :: 'u' :: 'r' :: 'e' :: p.1, p.2))
        | _ => none
      match withTure with
      | some r => some r
      | none => (matchDotSpaceDigits rest).map (fun p => (c :: 'e' :: 'c' :: p.1, p.2))
    else none
  | _ => none

structure ResourceReference where
  resource_id : String
  chapter : Option String
  lecture : Option String
  extra_info : Option String
deriving DecidableEq

def charsUpper (l : List Char) : List Char := l.map Char.toUpper

/-- `re.match` of the primary pattern: mandatory `R\d+` (case-sensitive)
at the start, greedy whitespace, the optional chapter/lecture group,
greedy whitespace, then `(.*)` up to a newline as `extra`;
`group(1).upper()` leaves `R` plus digits unchanged. -/
def matchPrimary (l : List Char) : Option ResourceReference :=
  match l with
  | 'R' :: rest =>
    let ds := rest.takeWhile Char.isDigit
    if ds.isEmpty then none
    else
      let afterId := rest.drop ds.length
      let afterSp := afterId.dropWhile pyIsSpace
      let groups : Option (List Char) × Option (List Char) × List Char :=
        match chapterAlt afterSp with
        | some (txt, r) => (some txt, none, r)
        | none =>
          match lectureAlt afterSp with
          | some (txt, r) => (none, some txt, r)
          | none => (none, none, afterSp)
      let afterSp2 := groups.2.2.dropWhile pyIsSpace
      let extra := afterSp2.takeWhile (fun c => decide (c ≠ '\n'))
      some { resource_id := ⟨'R' :: ds⟩
             chapter := groups.1.map (fun t => (⟨removeSpaces t⟩ : String))
             lecture := groups.2.1.map (fun t => (⟨removeSpaces t⟩ : String))
             extra_info := if extra.isEmpty then none else some ⟨pyStripChars extra⟩ }
  | _ => none

/-- `re.search(r'(R\d+)', part, re.IGNORECASE)` followed by
`group(1).upper()`. -/
def searchRId : List Char → Option String
  | [] => none
  | c :: rest =>
    if c = 'R' ∨ c = 'r' then
      (let ds := rest.takeWhile Char.isDigit
       if ds.isEmpty then searchRId rest
       else some ⟨charsUpper (c :: ds)⟩)
    else searchRId rest

/-- `re.split(r'[;,]', s)`. -/
def splitSemiComma : List Char → List (List Char)
  | [] => [[]]
  | c :: rest =>
    match splitSemiComma rest with
    | [] => [[c]]
    | h :: t => if c = ';' ∨ c = ',' then [] :: h :: t else (c :: h) :: t

/-- `SyllabusQdrantLinker._parse_resources`. -/
def parse_resources (resources_str : String) : List ResourceReference :=
  (splitSemiComma resources_str.data).foldl
    (fun acc partChars =>
      let part := pyStripChars partChars
      if part.isEmpty then acc
      else
        match matchPrimary part with
        | some ref => acc ++ [ref]
        | none =>
          match searchRId part with
          | some rid =>
            acc ++ [{ resource_id := rid, chapter := none, lecture := none,
                      extra_info := some ⟨part⟩ }]
          | none => acc)
    []

/-- C6: parsing `"R1 Ch1; R2 Lec5; garbage"` yields exactly the two
references R1/Ch1 and R2/Lec5; the token `garbage` matches neither the
primary pattern nor the R-number fallback and is silently dropped. -/
theorem parse_resources_example :
    parse_resources "R1 Ch1; R2 Lec5; garbage"
      = [⟨"R1", some "Ch1", none, none⟩, ⟨"R2", none, some "Lec5", none⟩] := by
  decide

/-! ## SyllabusQdrantLinker lookup APIs (C10) -/

structure SyllabusEntry where
  module : String
  lecture_number : Int
  topic : String
  subtopics : List String
  resources : List ResourceReference
  module_order : Int
deriving DecidableEq

structure SyllabusContext where
  module : String
  module_order : Int
  topic : String
  lecture_number : Int
  subtopics : List String
  chapter : Option String
  lecture_ref : Option String
  prerequisites : List String
deriving DecidableEq

/-- The linker state: entries, the resource-id to entries map, and the
loaded flag. -/
structure SyllabusQdrantLinker where
  syllabus_entries : List SyllabusEntry
  resource_to_entries : List (String × List SyllabusEntry)
  loaded : Bool
  course_name : Option String
deriving DecidableEq

/-- `re.match(r'(R\d+)', document_name, re.IGNORECASE)` then
`group(1).upper()`: anchored at the start of the filename. -/
def extractDocResourceId (document_name : String) : Option String :=
  match document_name.data with
  | c :: rest =>
    if c = 'R' ∨ c = 'r' then
      (let ds := rest.takeWhile Char.isDigit
       if ds.isEmpty then none else some ⟨charsUpper (c :: ds)⟩)
    else none
  | [] => none

/-- `SyllabusQdrantLinker.get_context_for_document`. -/
def get_context_for_document (linker : SyllabusQdrantLinker)
    (document_name : String) : Option SyllabusContext :=
  if !linker.loaded then none
  else
    match extractDocResourceId document_name with
    | none => none
    | some rid =>
      match dictGet linker.resource_to_entries rid with
      | none => none
      | some entries =>
        match entries with
        | [] => none
        | entry :: _ =>
          let cl :=
            match entry.resources.find? (fun ref => decide (ref.resource_id = rid)) with
            | some ref => (ref.chapter, ref.lecture)
            | none => ((none : Option String), (none : Option String))
          some { module := entry.module
                 module_order := entry.module_order
                 topic := entry.topic
                 lecture_number := entry.lecture_number
                 subtopics := entry.subtopics
                 chapter := cl.1
                 lecture_ref := cl.2
                 prerequisites := [] }

/-- `SyllabusQdrantLinker.get_all_contexts_for_document`. -/
def get_all_contexts_for_document (linker : SyllabusQdrantLinker)
    (document_name : String) : List SyllabusContext :=
  if !linker.loaded then []
  else
    match extractDocResourceId document_name with
    | none => []
    | some rid =>
      match dictGet linker.resource_to_entries rid with
      | none => []
      | some entries =>
        entries.map (fun entry =>
          let cl :=
            match entry.resources.find? (fun ref => decide (ref.resource_id = rid)) with
            | some ref => (ref.chapter, ref.lecture)
            | none => ((none : Option String), (none : Option String))
          { module := entry.module
            module_order := entry.module_order
            topic := entry.topic
            lecture_number := entry.lecture_number
            subtopics := entry.subtopics
            chapter := cl.1
            lecture_ref := cl.2
            prerequisites := [] })

/-- C10: for every linker state and filename, the single-context lookup
is the head of the all-contexts lookup: it is None exactly when the list
is empty, and otherwise equals the first element, with identical fields
and identical chapter/lecture_ref enrichment. -/
theorem get_context_eq_head_of_all (linker : SyllabusQdrantLinker)
    (document_name : String) :
    get_context_for_document linker document_name
      = (get_all_contexts_for_document linker document_name).head? := by
  unfold get_context_for_document get_all_contexts_for_document
  cases hl : linker.loaded with
  | false => simp
  | true =>
    simp only [Bool.not_true, Bool.false_eq_true, if_false]
    cases hx : extractDocResourceId document_name with
    | none => simp [hx]
    | some rid =>
      cases hd : dictGet linker.resource_to_entries rid with
      | none => simp [hx, hd]
      | some entries =>
        cases entries with
        | nil => simp [hx, hd]
        | cons entry rest => simp [hx, hd]

/-! ## Legacy flat parser: prerequisite inference (C7)

syllabus_graph_handler.py: `_map_row_to_concept` (lecture_based branch)
and `_infer_prerequisites_from_order`. -/

structure SylConcept where
  unit : String
  topic : String
  lecture_number : Option Int
  prerequisite : Option String
deriving DecidableEq

/-- The Python sort key `(c.get('lecture_number') is None,
c.get('lecture_number') or 0)`: rows without a number sort after all
numbered rows; `sorted` is stable. -/
def lectKey (c : SylConcept) : Nat ×ₗ Int :=
  toLex (if c.lecture_number.isSome then 0 else 1, c.lecture_number.getD 0)

/-- The `units` grouping dict (insertion-ordered, append per key). -/
def groupByUnit (concepts : List SylConcept) : List (String × List SylConcept) :=
  concepts.foldl
    (fun units c =>
      if dictHas units c.unit then
        units.map (fun p => if p.1 = c.unit then (p.1, p.2 ++ [c]) else p)
      else units ++ [(c.unit, [c])])
    []

/-- The inner loop of `_infer_prerequisites_from_order`: walk the sorted
group keeping `previous_topic`, filling in a missing prerequisite when
the previous topic is truthy. -/
def chainLoop : Option String → List SylConcept → List SylConcept
  | _, [] => []
  | prev, c :: rest =>
    (if c.prerequisite = none ∧ optTruthy prev then { c with prerequisite := prev } else c)
      :: chainLoop (some c.topic) rest

/-- `_infer_prerequisites_from_order`. -/
def infer_prerequisites_from_order (concepts : List SylConcept) : List SylConcept :=
  if concepts = [] then concepts
  else if !(concepts.any (fun c => c.lecture_number.isSome)) then concepts
  else
    (groupByUnit concepts).foldl
      (fun result p => result ++ chainLoop none (sortStable lectKey p.2)) []

/-- `_map_row_to_concept` in the lecture_based format, after `get_value`
has resolved and stripped the three relevant cells. -/
def map_row_to_concept_lecture (topicCell moduleCell lectureCell : String) : Option SylConcept :=
  let topic := strStrip topicCell
  let unit := strStrip moduleCell
  let lectureStr := strStrip lectureCell
  let lecture_number := if lectureStr ≠ "" then firstNumber lectureStr.data else none
  if topic = "" then none
  else some ⟨unit, topic, lecture_number, none⟩

/-- The claim's description of the chain: the first row keeps its
prerequisite, each later row's prerequisite is the topic of the row
immediately before it. -/
def chainSpec : List SylConcept → List SylConcept
  | [] => []
  | c :: rest =>
    c :: List.zipWith (fun prev cur => { cur with prerequisite := some prev.topic })
          (c :: rest) rest

theorem dictGet_append {K A : Type} [DecidableEq K] (a b : List (K × A)) (k : K) :
    dictGet (a ++ b) k = (dictGet a k).orElse (fun _ => dictGet b k) := by
  induction a with
  | nil => simp [dictGet, Option.orElse]
  | cons p t ih =>
    by_cases hp : p.1 = k
    · simp [dictGet, hp, Option.orElse]
    · simpa [dictGet, hp] using ih

theorem dictGet_map_update {K A : Type} [DecidableEq K]
    (acc : List (K × A)) (k : K) (f : A → A) (u : K) :
    dictGet (acc.map (fun p => if p.1 = k then (p.1, f p.2) else p)) u
      = if u = k then (dictGet acc u).map f else dictGet acc u := by
  induction acc with
  | nil => by_cases h : u = k <;> simp [dictGet, h]
  | cons p t ih =>
    by_cases hp : p.1 = k
    · by_cases hu : u = k
      · have hpu : p.1 = u := hp.trans hu.symm
        simp [dictGet, hp, hu, hpu]
      · have hpu : ¬ (p.1 = u) := fun he => hu ((he.symm.trans hp))
        have hku : ¬ (k = u) := fun he => hu he.symm
        simp [dictGet, hp, hu, hpu, hku, ih]
    · by_cases hpu : p.1 = u
      · have hu : ¬ (u = k) := fun he => hp (hpu.symm ▸ he)
        simp [dictGet, hp, hpu, hu]
      · simp [dictGet, hp, hpu, ih]

theorem dictGet_of_has_false {K A : Type} [DecidableEq K] (l : List (K × A)) (k : K)
    (h : dictHas l k = false) : dictGet l k = none := by
  cases hg : dictGet l k with
  | none => rfl
  | some a => rw [dictHas, hg] at h; simp at h

theorem dictGet_of_mem_nodup {K A : Type} [DecidableEq K] (l : List (K × A))
    (p : K × A) (hmem : p ∈ l) (hnd : (l.map (·.1)).Nodup) :
    dictGet l p.1 = some p.2 := by
  induction l with
  | nil => simp at hmem
  | cons q t ih =>
    simp only [List.map_cons, List.nodup_cons] at hnd
    rcases List.mem_cons.mp hmem with h1 | h1
    · subst h1
      simp [dictGet]
    · have hne : ¬ (q.1 = p.1) := by
        intro he
        exact hnd.1 (he ▸ List.mem_map_of_mem _ h1)
      simp only [dictGet, hne, if_neg]
      exact ih h1 hnd.2

theorem foldl_append_eq_flatten {A B : Type} (gs : List A) (f : A → List B) :
    ∀ acc : List B, gs.foldl (fun r x => r ++ f x) acc = acc ++ (gs.map f).flatten := by
  induction gs with
  | nil => intro acc; simp
  | cons g gs ih =>
    intro acc
    simp only [List.foldl_cons, List.map_cons, List.flatten_cons]
    rw [ih]
    simp [List.append_assoc]

theorem filter_flatten {A : Type} (p : A → Bool) (ls : List (List A)) :
    (ls.flatten).filter p = (ls.map (fun l => l.filter p)).flatten := by
  induction ls with
  | nil => rfl
  | cons l ls ih =>
    simp only [List.flatten_cons, List.map_cons, List.filter_append, ih]

theorem chainLoop_units (prev : Option String) (g : List SylConcept) :
    (chainLoop prev g).map (·.unit) = g.map (·.unit) := by
  induction g generalizing prev with
  | nil => rfl
  | cons c rest ih =>
    simp only [chainLoop, List.map_cons]
    by_cases hc : c.prerequisite = none ∧ optTruthy prev = true
    · simp [hc, ih]
    · simp [hc, ih]

theorem chainLoop_from (rest : List SylConcept) :
    ∀ prevC : SylConcept,
    (∀ c ∈ rest, c.prerequisite = none) → (∀ c ∈ rest, c.topic ≠ "") →
    prevC.topic ≠ "" →
    chainLoop (some prevC.topic) rest
      = List.zipWith (fun prev cur => { cur with prerequisite := some prev.topic })
          (prevC :: rest) rest := by
  induction rest with
  | nil => intro prevC _ _ _; rfl
  | cons d rest ih =>
    intro prevC hp htp hne
    have hd : d.prerequisite = none := hp d (by simp)
    have hcond : d.prerequisite = none ∧ optTruthy (some prevC.topic) = true := by
      refine ⟨hd, ?_⟩
      simp [optTruthy, hne]
    simp only [chainLoop]
    rw [if_pos hcond, List.zipWith_cons_cons]
    exact congrArg (List.cons _)
      (ih d (fun c hc => hp c (by simp [hc])) (fun c hc => htp c (by simp [hc]))
        (htp d (by simp)))

theorem chainLoop_eq_chainSpec (g : List SylConcept)
    (hp : ∀ c ∈ g, c.prerequisite = none) (htp : ∀ c ∈ g, c.topic ≠ "") :
    chainLoop none g = chainSpec g := by
  cases g with
  | nil => rfl
  | cons c rest =>
    have hcond : ¬ (c.prerequisite = none ∧ optTruthy (none : Option String) = true) := by
      rintro ⟨-, h2⟩
      simp [optTruthy] at h2
    simp only [chainLoop, chainSpec]
    rw [if_neg hcond]
    exact congrArg (List.cons c)
      (chainLoop_from rest c (fun x hx => hp x (by simp [hx]))
        (fun x hx => htp x (by simp [hx])) (htp c (by simp)))

theorem dictGet_map_append {K A : Type} [DecidableEq K]
    (acc : List (K × List A)) (k : K) (x : A) (u : K) :
    dictGet (acc.map (fun p => if p.1 = k then (p.1, p.2 ++ [x]) else p)) u
      = if u = k then (dictGet acc u).map (fun g => g ++ [x]) else dictGet acc u := by
  induction acc with
  | nil => by_cases h : u = k <;> simp [dictGet, h]
  | cons p t ih =>
    by_cases hp : p.1 = k
    · by_cases hu : u = k
      · have hpu : p.1 = u := hp.trans hu.symm
        simp [dictGet, hp, hu, hpu]
      · have hpu : ¬ (p.1 = u) := fun he => hu ((he.symm.trans hp))
        have hku : ¬ (k = u) := fun he => hu he.symm
        simp [dictGet, hp, hu, hpu, hku, ih]
    · by_cases hpu : p.1 = u
      · have hu : ¬ (u = k) := fun he => hp (hpu.symm ▸ he)
        simp [dictGet, hp, hpu, hu]
      · simp [dictGet, hp, hpu, ih]

theorem groupFold_get (l : List SylConcept) :
    ∀ (acc : List (String × List SylConcept)) (u : String),
    dictGet (l.foldl (fun units c =>
        if dictHas units c.unit then
          units.map (fun p => if p.1 = c.unit then (p.1, p.2 ++ [c]) else p)
        else units ++ [(c.unit, [c])]) acc) u
      = match dictGet acc u with
        | some g => some (g ++ l.filter (fun c => decide (c.unit = u)))
        | none =>
          if u ∈ l.map (·.unit) then some (l.filter (fun c => decide (c.unit = u)))
          else none := by
  induction l with
  | nil =>
    intro acc u
    cases hg : dictGet acc u <;> simp [hg]
  | cons c l ih =>
    intro acc u
    rw [List.foldl_cons]
    rw [ih]
    by_cases hd : dictHas acc c.unit = true
    · rw [if_pos hd]
      by_cases hu : u = c.unit
      · obtain ⟨g, hg⟩ : ∃ g, dictGet acc c.unit = some g := by
          cases hgg : dictGet acc c.unit with
          | none => rw [dictHas, hgg] at hd; simp at hd
          | some g => exact ⟨g, rfl⟩
        rw [dictGet_map_append, if_pos hu, hu, hg]
        simp [List.filter_cons, List.append_assoc]
      · rw [dictGet_map_append, if_neg hu]
        have hcu : ¬ (c.unit = u) := fun he => hu he.symm
        cases hg : dictGet acc u with
        | some g => simp [List.filter_cons, hcu]
        | none => simp [List.filter_cons, hcu, hu]
    · rw [if_neg hd]
      rw [dictGet_append]
      by_cases hu : u = c.unit
      · have hg : dictGet acc u = none := by
          rw [hu]
          exact dictGet_of_has_false _ _ (by simpa using hd)
        rw [hg]
        simp [dictGet, hu, List.filter_cons, Option.orElse]
      · have hcu : ¬ (c.unit = u) := fun he => hu he.symm
        cases hg : dictGet acc u with
        | some g => simp [dictGet, hcu, Option.orElse, List.filter_cons]
        | none => simp [dictGet, hcu, hu, Option.orElse, List.filter_cons]

theorem groupByUnit_get (l : List SylConcept) (u : String) :
    dictGet (groupByUnit l) u
      = if u ∈ l.map (·.unit) then some (l.filter (fun c => decide (c.unit = u)))
        else none := by
  have h := groupFold_get l [] u
  simpa [groupByUnit, dictGet] using h

theorem groupFold_nodup (l : List SylConcept) :
    ∀ (acc : List (String × List SylConcept)), ((acc.map (·.1)).Nodup) →
    (((l.foldl (fun units c =>
        if dictHas units c.unit then
          units.map (fun p => if p.1 = c.unit then (p.1, p.2 ++ [c]) else p)
        else units ++ [(c.unit, [c])]) acc).map (·.1)).Nodup) := by
  induction l with
  | nil => intro acc h; exact h
  | cons c l ih =>
    intro acc h
    rw [List.foldl_cons]
    apply ih
    by_cases hd : dictHas acc c.unit = true
    · rw [if_pos hd]
      have hkeys : (acc.map (fun p => if p.1 = c.unit then (p.1, p.2 ++ [c]) else p)).map (·.1)
          = acc.map (·.1) := by
        rw [List.map_map]
        apply List.map_congr_left
        intro p _
        by_cases hp : p.1 = c.unit <;> simp [hp]
      rw [hkeys]
      exact h
    · rw [if_neg hd]
      rw [List.map_append]
      rw [List.nodup_append]
      refine ⟨h, by simp, ?_⟩
      intro a ha hb
      simp only [List.map_cons, List.map_nil, List.mem_singleton] at hb
      subst hb
      have : ¬ (c.unit ∈ acc.map (·.1)) := by
        rw [← dictHas_iff_mem]
        simpa using hd
      exact this ha

theorem groupByUnit_nodup (l : List SylConcept) :
    ((groupByUnit l).map (·.1)).Nodup :=
  groupFold_nodup l [] (by simp)

theorem group_flatten_filter (u : String) (gs : List (String × List SylConcept))
    (hnd : (gs.map (·.1)).Nodup)
    (hunits : ∀ p ∈ gs, ∀ x ∈ chainLoop none (sortStable lectKey p.2), x.unit = p.1) :
    ((gs.map (fun p => chainLoop none (sortStable lectKey p.2))).flatten).filter
        (fun c => decide (c.unit = u))
      = match dictGet gs u with
        | some g => chainLoop none (sortStable lectKey g)
        | none => [] := by
  induction gs with
  | nil => simp [dictGet]
  | cons p gs ih =>
    simp only [List.map_cons, List.flatten_cons, List.filter_append]
    simp only [List.map_cons, List.nodup_cons] at hnd
    by_cases hpu : p.1 = u
    · have h1 : (chainLoop none (sortStable lectKey p.2)).filter
          (fun c => decide (c.unit = u)) = chainLoop none (sortStable lectKey p.2) :=
        List.filter_eq_self.mpr
          (fun a ha => by simp [hunits p (by simp) a ha, hpu])
      have hnotin : ¬ (u ∈ gs.map (·.1)) := hpu ▸ hnd.1
      have h2 := ih hnd.2 (fun q hq => hunits q (by simp [hq]))
      rw [dictGet_eq_none gs u hnotin] at h2
      rw [h1, h2]
      have hget : dictGet (p :: gs) u = some p.2 := by simp [dictGet, hpu]
      rw [hget]
      simp
    · have h1 : (chainLoop none (sortStable lectKey p.2)).filter
          (fun c => decide (c.unit = u)) = [] := by
        rw [List.filter_eq_nil_iff]
        intro a ha
        simp [hunits p (by simp) a ha, hpu]
      have h2 := ih hnd.2 (fun q hq => hunits q (by simp [hq]))
      rw [h1, h2]
      have hget : dictGet (p :: gs) u = dictGet gs u := by simp [dictGet, hpu]
      rw [hget]
      simp

/-- C7: in the legacy flat parser, (1) when no parsed row carries a
lecture number, no prerequisite is inferred; (2) every concept the
lecture_based row mapper emits has no explicit prerequisite and a
nonempty topic; (3) the per-module sorting is a stable ascending
arrangement by the key (number missing, number), so rows without a
number come after all numbered rows and equal keys keep their original
order; and (4) when some row carries a lecture number, within each
module the result is the sorted rows with each row's prerequisite set to
the topic of the row immediately before it, the first row of each module
keeping none. -/
theorem infer_prerequisites_spec :
    (∀ l : List SylConcept, (∀ c ∈ l, c.lecture_number = none) →
      infer_prerequisites_from_order l = l)
    ∧ (∀ (topicCell moduleCell lectureCell : String) (c : SylConcept),
        map_row_to_concept_lecture topicCell moduleCell lectureCell = some c →
        c.prerequisite = none ∧ c.topic ≠ "")
    ∧ (∀ g : List SylConcept,
        (sortStable lectKey g).Perm g
        ∧ (sortStable lectKey g).Pairwise (fun a b => lectKey a ≤ lectKey b)
        ∧ (∀ k, (sortStable lectKey g).filter (fun c => decide (lectKey c = k))
            = g.filter (fun c => decide (lectKey c = k))))
    ∧ (∀ l : List SylConcept, l.any (fun c => c.lecture_number.isSome) = true →
        (∀ c ∈ l, c.prerequisite = none) → (∀ c ∈ l, c.topic ≠ "") →
        ∀ u, (infer_prerequisites_from_order l).filter (fun c => decide (c.unit = u))
            = chainSpec (sortStable lectKey (l.filter (fun c => decide (c.unit = u))))
          ∧ (((infer_prerequisites_from_order l).filter
                (fun c => decide (c.unit = u))).head?.elim
              True (fun c => c.prerequisite = none))) := by
  refine ⟨?_, ?_, ?_, ?_⟩
  · intro l h
    unfold infer_prerequisites_from_order
    by_cases hl : l = []
    · rw [if_pos hl]
    · rw [if_neg hl]
      have hany : l.any (fun c => c.lecture_number.isSome) = false := by
        rw [List.any_eq_false]
        intro c hc
        simp [h c hc]
      rw [if_pos (by simp [hany])]
  · intro topicCell moduleCell lectureCell c hc
    unfold map_row_to_concept_lecture at hc
    by_cases ht : strStrip topicCell = ""
    · simp [ht] at hc
    · simp only [ht, if_neg, not_false_iff] at hc
      rw [← Option.some.inj hc]
      exact ⟨rfl, ht⟩
  · intro g
    exact ⟨sortStable_perm _ g, sortStable_sorted _ g, fun k => sortStable_filter _ g k⟩
  · intro l hany hall htop u
    have hne : ¬ (l = []) := by
      intro h
      subst h
      simp at hany
    have hmain : infer_prerequisites_from_order l
        = ((groupByUnit l).map (fun p => chainLoop none (sortStable lectKey p.2))).flatten := by
      unfold infer_prerequisites_from_order
      rw [if_neg hne, if_neg (by simp [hany])]
      rw [foldl_append_eq_flatten]
      simp
    have hgroups : ∀ p ∈ groupByUnit l, p.2 = l.filter (fun c => decide (c.unit = p.1)) := by
      intro p hp
      have hget := dictGet_of_mem_nodup _ p hp (groupByUnit_nodup l)
      rw [groupByUnit_get] at hget
      by_cases hm : p.1 ∈ l.map (·.unit)
      · rw [if_pos hm] at hget
        exact Option.some.inj hget.symm
      · rw [if_neg hm] at hget
        simp at hget
    have hunits : ∀ p ∈ groupByUnit l,
        ∀ x ∈ chainLoop none (sortStable lectKey p.2), x.unit = p.1 := by
      intro p hp x hx
      have h1 : x.unit ∈ (chainLoop none (sortStable lectKey p.2)).map (·.unit) :=
        List.mem_map_of_mem _ hx
      rw [chainLoop_units] at h1
      rcases List.mem_map.mp h1 with ⟨y, hy, hyu⟩
      have hy2 : y ∈ p.2 := (sortStable_perm lectKey p.2).mem_iff.mp hy
      rw [hgroups p hp] at hy2
      have := List.of_mem_filter hy2
      rw [← hyu]
      exact of_decide_eq_true this
    rw [hmain, group_flatten_filter u (groupByUnit l) (groupByUnit_nodup l) hunits]
    rw [groupByUnit_get]
    by_cases hm : u ∈ l.map (·.unit)
    · rw [if_pos hm]
      dsimp only
      have hsubmem : ∀ c ∈ sortStable lectKey (l.filter (fun c => decide (c.unit = u))),
          c ∈ l := by
        intro c hc
        have h1 : c ∈ l.filter (fun c => decide (c.unit = u)) :=
          (sortStable_perm lectKey _).mem_iff.mp hc
        exact List.mem_of_mem_filter h1
      have heq : chainLoop none (sortStable lectKey (l.filter (fun c => decide (c.unit = u))))
          = chainSpec (sortStable lectKey (l.filter (fun c => decide (c.unit = u)))) := by
        apply chainLoop_eq_chainSpec
        · intro c hc
          exact hall c (hsubmem c hc)
        · intro c hc
          exact htop c (hsubmem c hc)
      rw [heq]
      refine ⟨rfl, ?_⟩
      cases hs : sortStable lectKey (l.filter (fun c => decide (c.unit = u))) with
      | nil => simp [chainSpec]
      | cons c rest =>
        simp only [chainSpec, List.head?, Option.elim]
        apply hall c
        apply hsubmem
        rw [hs]
        simp
    · rw [if_neg hm]
      have hfe : l.filter (fun c => decide (c.unit = u)) = [] := by
        rw [List.filter_eq_nil_iff]
        intro c hc hdec
        apply hm
        have : c.unit = u := of_decide_eq_true hdec
        exact this ▸ List.mem_map_of_mem _ hc
      rw [hfe]
      simp [sortStable, chainSpec]

/-- Witness instantiating the main C7 conjunct at a concrete two-unit
table: unit U1 sorts its rows by lecture number and chains B after A. -/
theorem infer_prerequisites_spec_witness :
    (infer_prerequisites_from_order
        [⟨"U1", "B", some 2, none⟩, ⟨"U1", "A", some 1, none⟩, ⟨"U2", "C", some 1, none⟩]).filter
        (fun c => decide (c.unit = "U1"))
      = [⟨"U1", "A", some 1, none⟩, ⟨"U1", "B", some 2, some "A"⟩] := by
  have h := infer_prerequisites_spec.2.2.2
    [⟨"U1", "B", some 2, none⟩, ⟨"U1", "A", some 1, none⟩, ⟨"U2", "C", some 1, none⟩]
    (by decide) (by decide) (by decide) "U1"
  rw [h.1]
  decide

/-! ## get_learning_path (C5)

curriculum_graph_handler.py lines 724-827. The Cypher queries are
modeled deterministically: MATCH rows are enumerated in store insertion
order (`result.single()` takes the first row), ORDER BY is a stable
sort, and the variable-length `-[:PRECEDES*]->` match is a fuel-bounded
reachability check (fuel = number of module nodes), with a node counted
as lying on a path from `m1` to the target module when it is reachable
from `m1` and reaches the target, with at least one edge overall - the
path set of the acyclic chains the builder produces. -/

/-- `toLower(a) = toLower(b)`. -/
def courseMatch (a b : String) : Bool :=
  decide (strLower a = strLower b)

def reachStar (edges : List GraphEdge) : Nat → NodeKey → NodeKey → Bool
  | 0, a, b => decide (a = b)
  | fuel + 1, a, b =>
    decide (a = b) || edges.any (fun e => decide (e.src = a) && reachStar edges fuel e.dst b)

def reachPlus (edges : List GraphEdge) (fuel : Nat) (a b : NodeKey) : Bool :=
  edges.any (fun e => decide (e.src = a) && reachStar edges fuel e.dst b)

structure TopicQueryRecord where
  topic_id : String
  topic_name : String
  module_id : String
  module_name : String
  module_order : Int
deriving DecidableEq

/-- The `topic_query`: the first HAS_TOPIC edge into a topic with the
requested id whose two endpoints exist and match the course. -/
def topicQuery (course : String) (tid : String) (st : GraphState) : Option TopicQueryRecord :=
  match st.hasTopic.find? (fun e =>
      decide (e.dst.1 = tid) && courseMatch e.src.2 course && courseMatch e.dst.2 course
      && (dictGet st.moduleNodes e.src).isSome && (dictGet st.topicNodes e.dst).isSome) with
  | none => none
  | some e =>
    match dictGet st.moduleNodes e.src, dictGet st.topicNodes e.dst with
    | some mp, some tp => some ⟨e.dst.1, tp.name, e.src.1, mp.name, mp.order⟩
    | _, _ => none

/-- The `preceding_query`: modules on a PRECEDES path from a
course-matching module into a module with the given id, excluding that
id, ordered by `order`. -/
def precedingModules (course : String) (module_id : String) (st : GraphState) :
    List (NodeKey × ModuleProps) :=
  let fuel := st.moduleNodes.length
  let m2s := st.moduleNodes.filter
    (fun kv => decide (kv.1.1 = module_id) && courseMatch kv.1.2 course)
  let onPath := st.moduleNodes.filter (fun kv =>
    m2s.any (fun m2 =>
      st.moduleNodes.any (fun m1 =>
        courseMatch m1.1.2 course &&
        ((reachStar st.precedes fuel m1.1 kv.1 && reachPlus st.precedes fuel kv.1 m2.1)
         || (reachPlus st.precedes fuel m1.1 kv.1 && reachStar st.precedes fuel kv.1 m2.1)))))
  sortStable (fun kv : NodeKey × ModuleProps => kv.2.order)
    (onPath.filter (fun kv => decide (kv.1.1 ≠ module_id)))

/-- Lexicographic order on char lists by code point, the order `ORDER BY`
uses on the ASCII names in scope here. -/
def listCharLt : List Char → List Char → Bool
  | [], [] => false
  | [], _ :: _ => true
  | _ :: _, [] => false
  | a :: as, b :: bs =>
    if a.toNat < b.toNat then true
    else if b.toNat < a.toNat then false
    else listCharLt as bs

def strLtB (a b : String) : Bool := listCharLt a.data b.data

/-- Stable insertion sort by an explicit strict-order test. -/
def insertStableBy {A : Type} (lt : A → A → Bool) (x : A) : List A → List A
  | [] => [x]
  | y :: ys => if lt y x then y :: insertStableBy lt x ys else x :: y :: ys

def sortStableBy {A : Type} (lt : A → A → Bool) : List A → List A
  | [] => []
  | x :: xs => insertStableBy lt x (sortStableBy lt xs)

/-- The `prereq_query`: subtopics with a PREREQUISITE_OF edge into the
topic, course-matched on the topic, ordered by name. -/
def prereqSubtopics (course : String) (tid : String) (st : GraphState) :
    List (String × String) :=
  sortStableBy (fun p q : String × String => strLtB p.2 q.2)
    (st.prereqOf.filterMap (fun e =>
      if decide (e.dst.1 = tid) && courseMatch e.dst.2 course then
        (dictGet st.subtopicNodes e.src).map (fun sp => (e.src.1, sp.name))
      else none))

/-- An item of the learning-path list; modules carry an `order` field. -/
structure PathItem where
  itemType : String
  id : String
  name : String
  order : Option Int
deriving DecidableEq

/-- `get_learning_path`. -/
def get_learning_path (course : String) (target_topic_id : String) (st : GraphState) :
    List PathItem :=
  let tid := normalize_id target_topic_id
  match topicQuery course tid st with
  | none => []
  | some r =>
    ((precedingModules course r.module_id st).map
        (fun kv => (⟨"module", kv.1.1, kv.2.name, some kv.2.order⟩ : PathItem)))
      ++ [⟨"module", r.module_id, r.module_name, some r.module_order⟩]
      ++ ((prereqSubtopics course tid st).map
          (fun p => (⟨"subtopic", p.1, p.2, none⟩ : PathItem)))
      ++ [⟨"topic", r.topic_id, r.topic_name, none⟩]

theorem dictGet_mem {K A : Type} [DecidableEq K] (l : List (K × A)) (k : K) (v : A)
    (h : dictGet l k = some v) : (k, v) ∈ l := by
  induction l with
  | nil => simp [dictGet] at h
  | cons p t ih =>
    by_cases hp : p.1 = k
    · simp only [dictGet, hp, if_pos] at h
      have : p = (k, v) := by
        have hp2 : p.2 = v := Option.some.inj h
        calc p = (p.1, p.2) := rfl
          _ = (k, v) := by rw [hp, hp2]
      simp [this]
    · simp only [dictGet, hp, if_neg, not_false_iff] at h
      exact List.mem_cons_of_mem _ (ih h)

/-- C5, empty case: when no topic node with the normalized id exists in
the course, the learning path is empty. -/
theorem get_learning_path_absent_topic (course target : String) (st : GraphState)
    (h : ∀ kv ∈ st.topicNodes,
      ¬ (kv.1.1 = normalize_id target ∧ courseMatch kv.1.2 course = true)) :
    get_learning_path course target st = [] := by
  have hq : topicQuery course (normalize_id target) st = none := by
    unfold topicQuery
    have hf : st.hasTopic.find? (fun e =>
        decide (e.dst.1 = normalize_id target) && courseMatch e.src.2 course
        && courseMatch e.dst.2 course
        && (dictGet st.moduleNodes e.src).isSome
        && (dictGet st.topicNodes e.dst).isSome) = none := by
      rw [List.find?_eq_none]
      intro e _
      intro hp
      rcases Bool.and_eq_true_iff.mp hp with ⟨hp1, hp5⟩
      rcases Bool.and_eq_true_iff.mp hp1 with ⟨hp2, _⟩
      rcases Bool.and_eq_true_iff.mp hp2 with ⟨hp3, hdc⟩
      rcases Bool.and_eq_true_iff.mp hp3 with ⟨hid, _⟩
      obtain ⟨tp, htp⟩ : ∃ tp, dictGet st.topicNodes e.dst = some tp :=
        Option.isSome_iff_exists.mp hp5
      have hmem := dictGet_mem _ _ _ htp
      exact h (e.dst, tp) hmem ⟨of_decide_eq_true hid, hdc⟩
    rw [hf]
  simp only [get_learning_path, hq]

/-- C5 counterexample: a topic ingested with an empty module cell exists
in the course but has no HAS_TOPIC edge, and `get_learning_path` returns
the empty list for it, although the claim requires a list ending in the
topic itself for every existing topic. -/
theorem get_learning_path_moduleless_topic :
    dictHas (build_curriculum_graph "c" [] [⟨"t", "T", none, none⟩] []
        GraphState.empty).1.topicNodes ("t", "c") = true
    ∧ get_learning_path "c" "t"
        (build_curriculum_graph "c" [] [⟨"t", "T", none, none⟩] []
          GraphState.empty).1 = [] := by
  refine ⟨by decide, by decide⟩

theorem courseMatch_refl (c : String) : courseMatch c c = true := by
  simp [courseMatch]

theorem find_unique {A : Type} (p : A → Bool) (e : A) :
    ∀ (l : List A), e ∈ l → p e = true → (∀ x ∈ l, p x = true → x = e) →
    l.find? p = some e := by
  intro l
  induction l with
  | nil => intro h; simp at h
  | cons y t ih =>
    intro hmem hpe hall
    by_cases hy : p y = true
    · have hye : y = e := hall y (by simp) hy
      subst hye
      rw [List.find?_cons_of_pos t hy]
    · rw [List.find?_cons_of_neg t hy]
      rcases List.mem_cons.mp hmem with h1 | h1
      · exact absurd (h1 ▸ hpe) hy
      · exact ih h1 hpe (fun x hx hpx => hall x (by simp [hx]) hpx)

theorem writes_keys_nodup {X B : Type} (idf : X → String) (g : X → B) (course : String)
    (l : List X) (h : (l.map idf).Nodup) :
    ((l.map (fun x => ((idf x, course), g x))).map (·.1)).Nodup := by
  have h2 : Function.Injective (fun i : String => ((i, course) : NodeKey)) := by
    intro a b hab
    exact congrArg Prod.fst hab
  have h3 : ((l.map idf).map (fun i => ((i, course) : NodeKey))).Nodup := h.map h2
  have h4 : (l.map (fun x => ((idf x, course), g x))).map (·.1)
      = (l.map idf).map (fun i => ((i, course) : NodeKey)) := by
    simp [List.map_map, Function.comp]
  rw [h4]
  exact h3

theorem reachStar_refl (E : List GraphEdge) (fuel : Nat) (a : NodeKey) :
    reachStar E fuel a a = true := by
  cases fuel <;> simp [reachStar]

theorem reachStar_mono (E : List GraphEdge) :
    ∀ (f f' : Nat), f ≤ f' → ∀ a b, reachStar E f a b = true → reachStar E f' a b = true := by
  intro f
  induction f with
  | zero =>
    intro f' _ a b h
    simp only [reachStar, decide_eq_true_eq] at h
    subst h
    exact reachStar_refl E f' a
  | succ n ih =>
    intro f' hf a b h
    obtain ⟨m', rfl⟩ : ∃ m', f' = m' + 1 := ⟨f' - 1, by omega⟩
    simp only [reachStar, Bool.or_eq_true, decide_eq_true_eq, List.any_eq_true,
      Bool.and_eq_true] at h ⊢
    rcases h with h | ⟨e, heE, hsrc, hr⟩
    · exact Or.inl h
    · exact Or.inr ⟨e, heE, hsrc, ih m' (by omega) _ _ hr⟩

theorem adjacent_mem_zip {A : Type} :
    ∀ (u : List A) (x y : A) (v l : List A),
    l = u ++ x :: y :: v → (x, y) ∈ l.zip l.tail := by
  intro u
  induction u with
  | nil =>
    intro x y v l hl
    subst hl
    simp [List.zip_cons_cons]
  | cons a u ih =>
    intro x y v l hl
    subst hl
    have hmem := ih x y v (u ++ x :: y :: v) rfl
    cases hr : u ++ x :: y :: v with
    | nil => simp at hr
    | cons b r' =>
      rw [hr] at hmem
      simp only [List.tail_cons] at hmem
      simp only [List.cons_append, hr, List.tail_cons, List.zip_cons_cons]
      exact List.mem_cons_of_mem _ hmem

theorem pairwise_zip_tail {A : Type} (R : A → A → Prop) :
    ∀ (l : List A), l.Pairwise R → ∀ p ∈ l.zip l.tail, R p.1 p.2 := by
  intro l
  induction l with
  | nil => intro _ p hp; simp at hp
  | cons a l ih =>
    intro hpw p hp
    cases l with
    | nil => simp at hp
    | cons b r =>
      simp only [List.tail_cons, List.zip_cons_cons] at hp
      rcases List.mem_cons.mp hp with h1 | h1
      · subst h1
        exact (List.pairwise_cons.mp hpw).1 b (by simp)
      · have h2 := ih (List.pairwise_cons.mp hpw).2
        exact h2 p (by simpa using h1)

theorem zip_tail_mem {A : Type} (l : List A) (a b : A) (hp : (a, b) ∈ l.zip l.tail) :
    a ∈ l ∧ b ∈ l := by
  have h1 := List.of_mem_zip hp
  exact ⟨h1.1, List.mem_of_mem_tail h1.2⟩

theorem reachStar_chain (course : String) (E : List GraphEdge) :
    ∀ (w : List ModuleIn) (x : ModuleIn) (u ms : List ModuleIn),
    (∀ p ∈ ms.zip ms.tail, precEdge course p ∈ E) →
    ms = u ++ x :: w → ∀ y ∈ w,
    reachStar E w.length (x.id, course) (y.id, course) = true := by
  intro w
  induction w with
  | nil => intro x u ms _ _ y hy; simp at hy
  | cons z w' ih =>
    intro x u ms hEmem hms y hy
    have hedge : precEdge course (x, z) ∈ E :=
      hEmem (x, z) (adjacent_mem_zip u x z w' ms hms)
    rcases List.mem_cons.mp hy with h1 | h1
    · subst h1
      simp only [List.length_cons, reachStar, Bool.or_eq_true, List.any_eq_true,
        Bool.and_eq_true, decide_eq_true_eq]
      exact Or.inr ⟨precEdge course (x, y), hedge, rfl, reachStar_refl E w'.length _⟩
    · have hrec := ih z (u ++ [x]) ms hEmem (by rw [hms]; simp) y h1
      simp only [List.length_cons, reachStar, Bool.or_eq_true, List.any_eq_true,
        Bool.and_eq_true, decide_eq_true_eq]
      exact Or.inr ⟨precEdge course (x, z), hedge, rfl, hrec⟩

theorem reachPlus_chain (course : String) (E : List GraphEdge)
    (w : List ModuleIn) (x : ModuleIn) (u ms : List ModuleIn) (fuel : Nat)
    (hEmem : ∀ p ∈ ms.zip ms.tail, precEdge course p ∈ E)
    (hms : ms = u ++ x :: w) (hfuel : w.length ≤ fuel + 1) :
    ∀ y ∈ w, reachPlus E fuel (x.id, course) (y.id, course) = true := by
  intro y hy
  cases w with
  | nil => simp at hy
  | cons z w' =>
    have hedge : precEdge course (x, z) ∈ E :=
      hEmem (x, z) (adjacent_mem_zip u x z w' ms hms)
    simp only [reachPlus, List.any_eq_true, Bool.and_eq_true, decide_eq_true_eq]
    rcases List.mem_cons.mp hy with h1 | h1
    · subst h1
      exact ⟨precEdge course (x, y), hedge, rfl, reachStar_refl E fuel _⟩
    · have hr := reachStar_chain course E w' z (u ++ [x]) ms hEmem (by rw [hms]; simp) y h1
      simp only [List.length_cons] at hfuel
      exact ⟨precEdge course (x, z), hedge, rfl,
        reachStar_mono E w'.length fuel (by omega) _ _ hr⟩

theorem reachStar_order (course : String) (ms : List ModuleIn) (E : List GraphEdge)
    (hEinv : ∀ e ∈ E, ∃ p ∈ ms.zip ms.tail, e = precEdge course p)
    (hpw : ms.Pairwise (fun a b => a.order < b.order))
    (hnd : (ms.map (·.id)).Nodup) :
    ∀ (fuel : Nat) (p q : NodeKey), reachStar E fuel p q = true →
    p = q ∨ ∃ x ∈ ms, ∃ y ∈ ms,
      p = (x.id, course) ∧ q = (y.id, course) ∧ x.order < y.order := by
  intro fuel
  induction fuel with
  | zero =>
    intro p q h
    simp only [reachStar, decide_eq_true_eq] at h
    exact Or.inl h
  | succ n ih =>
    intro p q h
    simp only [reachStar, Bool.or_eq_true, decide_eq_true_eq, List.any_eq_true,
      Bool.and_eq_true] at h
    rcases h with h | ⟨e, heE, hsrc, hr⟩
    · exact Or.inl h
    · obtain ⟨pr, hpr, hepr⟩ := hEinv e heE
      obtain ⟨a, b⟩ := pr
      have hab : a.order < b.order := pairwise_zip_tail _ ms hpw (a, b) hpr
      have hmemab := zip_tail_mem ms a b hpr
      have hsrc' : p = (a.id, course) := by rw [← hsrc, hepr]; rfl
      have hdst : e.dst = (b.id, course) := by rw [hepr]; rfl
      rcases ih e.dst q hr with h2 | ⟨x, hx, y, hy2, hpx, hqy, hord2⟩
      · exact Or.inr ⟨a, hmemab.1, b, hmemab.2, hsrc', by rw [← h2, hdst], hab⟩
      · have hbid : b.id = x.id := by
          have h3 : (b.id, course) = (x.id, course) := hdst ▸ hpx
          exact congrArg Prod.fst h3
        have hbe : b = x := List.inj_on_of_nodup_map hnd hmemab.2 hx hbid
        exact Or.inr ⟨a, hmemab.1, y, hy2, hsrc', hqy, lt_trans (hbe ▸ hab) hord2⟩

theorem reachPlus_order (course : String) (ms : List ModuleIn) (E : List GraphEdge)
    (hEinv : ∀ e ∈ E, ∃ p ∈ ms.zip ms.tail, e = precEdge course p)
    (hpw : ms.Pairwise (fun a b => a.order < b.order))
    (hnd : (ms.map (·.id)).Nodup)
    (fuel : Nat) (p q : NodeKey) (h : reachPlus E fuel p q = true) :
    ∃ x ∈ ms, ∃ y ∈ ms,
      p = (x.id, course) ∧ q = (y.id, course) ∧ x.order < y.order := by
  simp only [reachPlus, List.any_eq_true, Bool.and_eq_true, decide_eq_true_eq] at h
  obtain ⟨e, heE, hsrc, hr⟩ := h
  obtain ⟨pr, hpr, hepr⟩ := hEinv e heE
  obtain ⟨a, b⟩ := pr
  have hab : a.order < b.order := pairwise_zip_tail _ ms hpw (a, b) hpr
  have hmemab := zip_tail_mem ms a b hpr
  have hsrc' : p = (a.id, course) := by rw [← hsrc, hepr]; rfl
  have hdst : e.dst = (b.id, course) := by rw [hepr]; rfl
  rcases reachStar_order course ms E hEinv hpw hnd fuel e.dst q hr with h2 |
    ⟨x, hx, y, hy2, hpx, hqy, hord2⟩
  · exact ⟨a, hmemab.1, b, hmemab.2, hsrc', by rw [← h2, hdst], hab⟩
  · have hbid : b.id = x.id := by
      have h3 : (b.id, course) = (x.id, course) := hdst ▸ hpx
      exact congrArg Prod.fst h3
    have hbe : b = x := List.inj_on_of_nodup_map hnd hmemab.2 hx hbid
    exact ⟨a, hmemab.1, y, hy2, hsrc', hqy, lt_trans (hbe ▸ hab) hord2⟩

theorem edgeFold_cons {X : Type} (cond : X → Bool) (edge : X → GraphEdge)
    (x : X) (t : List X) (es : List GraphEdge) :
    edgeFold cond edge (x :: t) es
      = edgeFold cond edge t (if cond x then mergeEdge es (edge x) else es) := rfl

theorem edgeFold_fresh {X : Type} (cond : X → Bool) (edge : X → GraphEdge) :
    ∀ (xs : List X) (es : List GraphEdge),
    (∀ x ∈ xs, cond x = true → ¬ edge x ∈ es) →
    ((xs.filter cond).map edge).Nodup →
    edgeFold cond edge xs es = es ++ (xs.filter cond).map edge := by
  intro xs
  induction xs with
  | nil => intro es _ _; simp [edgeFold]
  | cons x t ih =>
    intro es hfresh hnd
    by_cases hc : cond x = true
    · rw [edgeFold_cons, if_pos hc]
      have hnotin : ¬ edge x ∈ es := hfresh x (by simp) hc
      have hmerge : mergeEdge es (edge x) = es ++ [edge x] := by simp [mergeEdge, hnotin]
      rw [hmerge]
      rw [List.filter_cons_of_pos hc] at hnd ⊢
      rw [List.map_cons] at hnd
      have hnd' := List.nodup_cons.mp hnd
      have hrec := ih (es ++ [edge x])
        (fun y hy hcy => by
          intro hmem
          rcases List.mem_append.mp hmem with h1 | h1
          · exact hfresh y (by simp [hy]) hcy h1
          · simp only [List.mem_singleton] at h1
            exact hnd'.1 (h1 ▸ List.mem_map_of_mem edge (List.mem_filter.mpr ⟨hy, hcy⟩)))
        hnd'.2
      rw [hrec, List.map_cons]
      simp
    · rw [edgeFold_cons, if_neg hc]
      rw [List.filter_cons_of_neg hc] at hnd ⊢
      exact ih es (fun y hy hcy => hfresh y (by simp [hy]) hcy) hnd

theorem filterMap_congr_mem {A B : Type} (f g : A → Option B) :
    ∀ (l : List A), (∀ x ∈ l, f x = g x) → l.filterMap f = l.filterMap g := by
  intro l
  induction l with
  | nil => intro _; rfl
  | cons x t ih =>
    intro h
    rw [List.filterMap_cons, List.filterMap_cons, h x (by simp),
      ih (fun y hy => h y (by simp [hy]))]

theorem filterMap_ite {A B : Type} (c : A → Bool) (g : A → B) (l : List A) :
    l.filterMap (fun x => if c x then some (g x) else none) = (l.filter c).map g := by
  induction l with
  | nil => rfl
  | cons x t ih =>
    by_cases hc : c x = true
    · rw [List.filterMap_cons, List.filter_cons_of_pos hc, List.map_cons, ← ih]
      simp [hc]
    · rw [List.filterMap_cons, List.filter_cons_of_neg hc, ← ih]
      simp [hc]

theorem filter_moduleWrites (course : String) (ms : List ModuleIn)
    (p : NodeKey × ModuleProps → Bool) :
    (moduleWrites course ms).filter p
      = (ms.filter (fun x => p ((x.id, course), ⟨x.name, x.order⟩))).map
          (fun x => (((x.id, course) : NodeKey), (⟨x.name, x.order⟩ : ModuleProps))) :=
  filter_map_factor _ p ms

theorem topicQuery_built (course : String) (ms : List ModuleIn) (ts : List TopicIn)
    (m : ModuleIn) (t : TopicIn)
    (hmnd : (ms.map (·.id)).Nodup) (htnd : (ts.map (·.id)).Nodup)
    (hm : m ∈ ms) (ht : t ∈ ts)
    (htmod : t.moduleId = some m.id) (hmid : m.id ≠ "")
    (st : GraphState)
    (hMst : st.moduleNodes = moduleWrites course ms)
    (hTst : st.topicNodes = topicWrites course ts)
    (hHT : st.hasTopic = edgeFold (htCond course (moduleWrites course ms))
      (htEdge course) ts []) :
    topicQuery course t.id st = some ⟨t.id, t.name, m.id, m.name, m.order⟩ := by
  have hMn : ((moduleWrites course ms).map (·.1)).Nodup :=
    writes_keys_nodup (fun x : ModuleIn => x.id)
      (fun x => (⟨x.name, x.order⟩ : ModuleProps)) course ms hmnd
  have hTn : ((topicWrites course ts).map (·.1)).Nodup :=
    writes_keys_nodup (fun x : TopicIn => x.id)
      (fun x => (⟨x.name, x.moduleId⟩ : TopicProps)) course ts htnd
  have hgetM : dictGet (moduleWrites course ms) (m.id, course) = some ⟨m.name, m.order⟩ :=
    dictGet_of_mem_nodup (moduleWrites course ms) ((m.id, course), ⟨m.name, m.order⟩)
      (List.mem_map_of_mem
        (fun x : ModuleIn => (((x.id, course) : NodeKey), (⟨x.name, x.order⟩ : ModuleProps)))
        hm) hMn
  have hgetT : dictGet (topicWrites course ts) (t.id, course) = some ⟨t.name, t.moduleId⟩ :=
    dictGet_of_mem_nodup (topicWrites course ts) ((t.id, course), ⟨t.name, t.moduleId⟩)
      (List.mem_map_of_mem
        (fun x : TopicIn => (((x.id, course) : NodeKey), (⟨x.name, x.moduleId⟩ : TopicProps)))
        ht) hTn
  have hedge_eq : htEdge course t = ⟨(m.id, course), (t.id, course)⟩ := by
    simp [htEdge, htmod]
  have hhasM : dictHas (moduleWrites course ms) (m.id, course) = true := by
    unfold dictHas
    rw [hgetM]
    rfl
  have hcond : htCond course (moduleWrites course ms) t = true := by
    simp [htCond, htmod, optTruthy, hmid, hhasM]
  have hmem_edge : htEdge course t ∈ st.hasTopic := by
    rw [hHT]
    exact edgeFold_mem_all _ _ ts [] t ht hcond
  have hpe : (fun e : GraphEdge =>
      decide (e.dst.1 = t.id) && courseMatch e.src.2 course && courseMatch e.dst.2 course
      && (dictGet st.moduleNodes e.src).isSome
      && (dictGet st.topicNodes e.dst).isSome) (htEdge course t) = true := by
    rw [hedge_eq]
    simp [courseMatch_refl, hMst, hTst, hgetM, hgetT]
  have hall : ∀ e ∈ st.hasTopic,
      (fun e : GraphEdge =>
        decide (e.dst.1 = t.id) && courseMatch e.src.2 course && courseMatch e.dst.2 course
        && (dictGet st.moduleNodes e.src).isSome
        && (dictGet st.topicNodes e.dst).isSome) e = true → e = htEdge course t := by
    intro e he hpe'
    rw [hHT] at he
    rcases edgeFold_mem_inv _ _ ts [] e he with h1 | ⟨t', ht', hct', he'⟩
    · simp at h1
    · subst he'
      have hid : t'.id = t.id := by
        simp only [htEdge, Bool.and_eq_true, decide_eq_true_eq] at hpe'
        exact hpe'.1.1.1.1
      have ht'e : t' = t := List.inj_on_of_nodup_map htnd ht' ht hid
      rw [ht'e]
  have hfind : st.hasTopic.find? (fun e : GraphEdge =>
      decide (e.dst.1 = t.id) && courseMatch e.src.2 course && courseMatch e.dst.2 course
      && (dictGet st.moduleNodes e.src).isSome
      && (dictGet st.topicNodes e.dst).isSome) = some (htEdge course t) :=
    find_unique _ _ st.hasTopic hmem_edge hpe hall
  unfold topicQuery
  rw [hfind, hedge_eq]
  simp only [hMst, hTst]
  rw [hgetM, hgetT]

theorem precedingModules_built (course : String) (pre post : List ModuleIn) (m : ModuleIn)
    (hmnd : (((pre ++ m :: post)).map (·.id)).Nodup)
    (hord : (pre ++ m :: post).Pairwise (fun a b => a.order < b.order))
    (st : GraphState)
    (hMst : st.moduleNodes = moduleWrites course (pre ++ m :: post))
    (hPrec : st.precedes = edgeFold (precCond course (moduleWrites course (pre ++ m :: post)))
      (precEdge course) ((pre ++ m :: post).zip (pre ++ m :: post).tail) []) :
    precedingModules course m.id st
      = pre.map (fun x => (((x.id, course) : NodeKey),
          (⟨x.name, x.order⟩ : ModuleProps))) := by
  set ms := pre ++ m :: post with hms
  have hkeys : ∀ x ∈ ms, ((x.id, course) : NodeKey) ∈ (moduleWrites course ms).map (·.1) := by
    intro x hx
    have h1 : ((x.id, course) : NodeKey)
        ∈ ms.map (fun z : ModuleIn => ((z.id, course) : NodeKey)) := List.mem_map_of_mem _ hx
    simpa [moduleWrites, List.map_map, Function.comp] using h1
  have hEmem : ∀ q ∈ ms.zip ms.tail, precEdge course q ∈ st.precedes := by
    intro q hq
    rw [hPrec]
    have hmemq := zip_tail_mem ms q.1 q.2 hq
    have hcond : precCond course (moduleWrites course ms) q = true := by
      simp only [precCond, Bool.and_eq_true]
      exact ⟨(dictHas_iff_mem _ _).mpr (hkeys q.1 hmemq.1),
             (dictHas_iff_mem _ _).mpr (hkeys q.2 hmemq.2)⟩
    exact edgeFold_mem_all _ _ (ms.zip ms.tail) [] q hq hcond
  have hEinv : ∀ e ∈ st.precedes, ∃ q ∈ ms.zip ms.tail, e = precEdge course q := by
    intro e he
    rw [hPrec] at he
    rcases edgeFold_mem_inv _ _ (ms.zip ms.tail) [] e he with h1 | ⟨q, hq, _, he'⟩
    · simp at h1
    · exact ⟨q, hq, he'⟩
  have hmnd2 : ((pre.map (fun x : ModuleIn => x.id))
      ++ (m.id :: post.map (fun x : ModuleIn => x.id))).Nodup := by
    have h0 := hmnd
    rw [hms] at h0
    simpa using h0
  have hsplit := List.nodup_append.mp hmnd2
  have hm_pre : ∀ x ∈ pre, x.id ≠ m.id := fun x hx he =>
    hsplit.2.2 (List.mem_map_of_mem _ hx) (by simp [he])
  have hm_post : ∀ x ∈ post, x.id ≠ m.id := by
    intro x hx he
    have h1 : m.id ∈ post.map (fun z : ModuleIn => z.id) := by
      rw [← he]
      exact List.mem_map_of_mem _ hx
    exact (List.nodup_cons.mp hsplit.2.1).1 h1
  have hpp := List.pairwise_append.mp hord
  have hm_post_ord : ∀ x ∈ post, m.order < x.order := fun x hx =>
    (List.pairwise_cons.mp hpp.2.1).1 x hx
  have hm_mem : m ∈ ms := by rw [hms]; simp
  have hpre_ms : ∀ x ∈ pre, x ∈ ms := by intro x hx; rw [hms]; simp [hx]
  have hpost_ms : ∀ x ∈ post, x ∈ ms := by intro x hx; rw [hms]; simp [hx]
  have hfid : ms.filter (fun x => decide (x.id = m.id)) = [m] := by
    rw [hms, List.filter_append, List.filter_cons]
    have h1 : pre.filter (fun x => decide (x.id = m.id)) = [] :=
      List.filter_eq_nil_iff.mpr (fun x hx => by simp [hm_pre x hx])
    have h2 : post.filter (fun x => decide (x.id = m.id)) = [] :=
      List.filter_eq_nil_iff.mpr (fun x hx => by simp [hm_post x hx])
    simp [h1, h2]
  have hm2s : st.moduleNodes.filter
        (fun kv => decide (kv.1.1 = m.id) && courseMatch kv.1.2 course)
      = [(((m.id, course) : NodeKey), (⟨m.name, m.order⟩ : ModuleProps))] := by
    rw [hMst]
    rw [show (moduleWrites course ms).filter
          (fun kv => decide (kv.1.1 = m.id) && courseMatch kv.1.2 course)
        = (ms.filter (fun x =>
            (fun kv : NodeKey × ModuleProps => decide (kv.1.1 = m.id) && courseMatch kv.1.2 course)
              ((x.id, course), ⟨x.name, x.order⟩))).map
            (fun x => (((x.id, course) : NodeKey), (⟨x.name, x.order⟩ : ModuleProps)))
      from filter_map_factor _ _ ms]
    rw [show ms.filter (fun x =>
          (fun kv : NodeKey × ModuleProps => decide (kv.1.1 = m.id) && courseMatch kv.1.2 course)
            ((x.id, course), ⟨x.name, x.order⟩))
        = ms.filter (fun x => decide (x.id = m.id))
      from List.filter_congr (fun x _ => by simp [courseMatch_refl])]
    rw [hfid]
    rfl
  have main_step : ∀ P : ModuleIn → Bool,
      (∀ x ∈ pre, P x = true) → (P m = false) → (∀ x ∈ post, P x = false) →
      sortStable (fun kv : NodeKey × ModuleProps => kv.2.order)
          ((ms.filter P).map
            (fun x => (((x.id, course) : NodeKey), (⟨x.name, x.order⟩ : ModuleProps))))
        = pre.map (fun x => (((x.id, course) : NodeKey), (⟨x.name, x.order⟩ : ModuleProps))) := by
    intro P h1 h2 h3
    rw [hms, List.filter_append, List.filter_cons, List.filter_eq_self.mpr h1, h2,
      if_neg Bool.false_ne_true,
      List.filter_eq_nil_iff.mpr (fun x hx => by simp [h3 x hx]),
      List.append_nil]
    apply sortStable_of_sorted
    rw [List.pairwise_map]
    exact hpp.1
  have hunfold : precedingModules course m.id st
      = sortStable (fun kv : NodeKey × ModuleProps => kv.2.order)
          ((st.moduleNodes.filter (fun kv =>
            (st.moduleNodes.filter
              (fun kv2 => decide (kv2.1.1 = m.id) && courseMatch kv2.1.2 course)).any
              (fun m2 => st.moduleNodes.any (fun m1 =>
                courseMatch m1.1.2 course &&
                ((reachStar st.precedes st.moduleNodes.length m1.1 kv.1
                    && reachPlus st.precedes st.moduleNodes.length kv.1 m2.1)
                 || (reachPlus st.precedes st.moduleNodes.length m1.1 kv.1
                    && reachStar st.precedes st.moduleNodes.length kv.1 m2.1)))))).filter
            (fun kv => decide (kv.1.1 ≠ m.id))) := rfl
  rw [hunfold, hm2s]
  simp only [List.any_cons, List.any_nil, Bool.or_false]
  rw [List.filter_filter, hMst, filter_moduleWrites]
  refine main_step _ ?_ ?_ ?_
  · intro x hx
    have hx_ms : x ∈ ms := hpre_ms x hx
    obtain ⟨pa, pb, hpre_eq⟩ := List.append_of_mem hx
    have hdecomp : ms = pa ++ x :: (pb ++ m :: post) := by
      rw [hms, hpre_eq]
      simp
    have hlenms : ms.length = pa.length + 1 + (pb ++ m :: post).length := by
      rw [hdecomp]
      simp [List.length_append, List.length_cons]
      omega
    have hlenMW : (moduleWrites course ms).length = ms.length := by
      simp [moduleWrites]
    have hreachP : reachPlus st.precedes (moduleWrites course ms).length
        (x.id, course) (m.id, course) = true := by
      have := reachPlus_chain course st.precedes (pb ++ m :: post) x pa ms
        ((moduleWrites course ms).length) hEmem hdecomp (by omega) m (by simp)
      exact this
    simp only [Bool.and_eq_true, decide_eq_true_eq, List.any_eq_true, Bool.or_eq_true]
    refine ⟨hm_pre x hx,
      ⟨((x.id, course), ⟨x.name, x.order⟩), List.mem_map_of_mem _ hx_ms,
        courseMatch_refl course, Or.inl ⟨reachStar_refl _ _ _, hreachP⟩⟩⟩
  · simp
  · intro x hx
    rw [Bool.eq_false_iff]
    intro hcontra
    simp only [Bool.and_eq_true, decide_eq_true_eq, List.any_eq_true,
      Bool.or_eq_true] at hcontra
    obtain ⟨hne, m1, hm1, hcm, hdisj⟩ := hcontra
    have hx_ms : x ∈ ms := hpost_ms x hx
    rcases hdisj with ⟨hst1, hpl⟩ | ⟨hpl1, hst2⟩
    · obtain ⟨a, ha, b, hb, hxa, hmb, ho⟩ :=
        reachPlus_order course ms st.precedes hEinv hord hmnd _ _ _ hpl
      have hxa2 : x = a :=
        List.inj_on_of_nodup_map hmnd hx_ms ha (congrArg Prod.fst hxa)
      have hmb2 : m = b :=
        List.inj_on_of_nodup_map hmnd hm_mem hb (congrArg Prod.fst hmb)
      have hgt := hm_post_ord x hx
      rw [hxa2, hmb2] at hgt
      exact absurd ho (not_lt_of_gt hgt)
    · rcases reachStar_order course ms st.precedes hEinv hord hmnd _ _ _ hst2 with heq |
        ⟨a, ha, b, hb, hxa, hmb, ho⟩
      · exact hm_post x hx (congrArg Prod.fst heq)
      · have hxa2 : x = a :=
          List.inj_on_of_nodup_map hmnd hx_ms ha (congrArg Prod.fst hxa)
        have hmb2 : m = b :=
          List.inj_on_of_nodup_map hmnd hm_mem hb (congrArg Prod.fst hmb)
        have hgt := hm_post_ord x hx
        rw [hxa2, hmb2] at hgt
        exact absurd ho (not_lt_of_gt hgt)

theorem prereqSubtopics_built (course : String) (ts : List TopicIn) (ss : List SubtopicIn)
    (t : TopicIn)
    (htnd : (ts.map (·.id)).Nodup) (hsnd : (ss.map (·.id)).Nodup)
    (ht : t ∈ ts) (htid : t.id ≠ "")
    (st : GraphState)
    (hSst : st.subtopicNodes = subtopicWrites course ss)
    (hPR : st.prereqOf = edgeFold (prCond course (topicWrites course ts))
      (prEdge course) ss []) :
    prereqSubtopics course t.id st
      = sortStableBy (fun p q : String × String => strLtB p.2 q.2)
          ((ss.filter (fun s => decide (s.topicId = t.id))).map
            (fun s => (s.id, s.name))) := by
  have hSn : ((subtopicWrites course ss).map (·.1)).Nodup :=
    writes_keys_nodup (fun x : SubtopicIn => x.id)
      (fun x => (⟨x.name, x.topicId⟩ : SubtopicProps)) course ss hsnd
  have hids : ((ss.filter (prCond course (topicWrites course ts))).map
      (fun s : SubtopicIn => s.id)).Nodup := by
    have hsub : ((ss.filter (prCond course (topicWrites course ts))).map
        (fun s : SubtopicIn => s.id)).Sublist (ss.map (fun s : SubtopicIn => s.id)) :=
      List.Sublist.map _ (List.filter_sublist ss)
    exact hsnd.sublist hsub
  have hedgesnd : ((ss.filter (prCond course (topicWrites course ts))).map
      (prEdge course)).Nodup := by
    apply List.Nodup.of_map (fun e : GraphEdge => e.src.1)
    rw [List.map_map]
    exact hids
  have hedges : st.prereqOf
      = (ss.filter (prCond course (topicWrites course ts))).map (prEdge course) := by
    rw [hPR, edgeFold_fresh _ _ ss [] (fun x _ _ => by simp) hedgesnd]
    rfl
  have hhasT : dictHas (topicWrites course ts) (t.id, course) = true := by
    rw [dictHas_iff_mem]
    have h1 : ((t.id, course) : NodeKey)
        ∈ ts.map (fun z : TopicIn => ((z.id, course) : NodeKey)) := List.mem_map_of_mem _ ht
    simpa [topicWrites, List.map_map, Function.comp] using h1
  unfold prereqSubtopics
  rw [hedges, List.filterMap_map]
  rw [filterMap_congr_mem _
    (fun s : SubtopicIn => if decide (s.topicId = t.id) then some (s.id, s.name) else none) _
    (by
      intro s hs
      have hs_ss : s ∈ ss := (List.mem_filter.mp hs).1
      have hget : dictGet (subtopicWrites course ss) (s.id, course)
          = some ⟨s.name, s.topicId⟩ :=
        dictGet_of_mem_nodup (subtopicWrites course ss)
          ((s.id, course), ⟨s.name, s.topicId⟩)
          (List.mem_map_of_mem
            (fun x : SubtopicIn =>
              (((x.id, course) : NodeKey), (⟨x.name, x.topicId⟩ : SubtopicProps)))
            hs_ss) hSn
      show (if decide ((prEdge course s).dst.1 = t.id)
            && courseMatch (prEdge course s).dst.2 course then
          (dictGet st.subtopicNodes (prEdge course s).src).map
            (fun sp => ((prEdge course s).src.1, sp.name))
        else none) = _
      by_cases hc : s.topicId = t.id
      · rw [if_pos (by simp [prEdge, hc, courseMatch_refl])]
        show (dictGet st.subtopicNodes (s.id, course)).map (fun sp => (s.id, sp.name))
          = (fun s : SubtopicIn =>
              if decide (s.topicId = t.id) then some (s.id, s.name) else none) s
        rw [hSst, hget]
        simp [hc]
      · rw [if_neg (by simp [prEdge, hc])]
        simp [hc])]
  rw [filterMap_ite]
  rw [List.filter_comm]
  rw [List.filter_eq_self.mpr (by
    intro s hs
    have hmem := List.mem_filter.mp hs
    have htopic : s.topicId = t.id := by
      have := hmem.2
      simpa using this
    simp [prCond, htopic, htid, hhasT])]

/-- C5 (amended): on a well-formed single-course build - distinct module,
topic and subtopic ids, strictly increasing module orders, and a target
topic whose normalized id resolves to a topic `t` stored with nonempty id
and linked to module `m` at position `|pre|` of the module list - the
learning path is the modules before `m` in order, then `m`, then the
prerequisite subtopics of `t` sorted by name, then `t` itself.  When no
topic node in the course carries the normalized id, the path is empty
(see the companion counterexample for a stored topic without a module,
where the claim's non-empty case fails). -/
theorem get_learning_path_spec (course target : String)
    (pre post : List ModuleIn) (m : ModuleIn)
    (ts : List TopicIn) (ss : List SubtopicIn) (t : TopicIn)
    (hmnd : (((pre ++ m :: post) : List ModuleIn).map (·.id)).Nodup)
    (hord : (pre ++ m :: post).Pairwise (fun a b => a.order < b.order))
    (htnd : (ts.map (·.id)).Nodup)
    (hsnd : (ss.map (·.id)).Nodup)
    (ht : t ∈ ts)
    (hnorm : normalize_id target = t.id)
    (htmod : t.moduleId = some m.id)
    (hmid : m.id ≠ "") (htid : t.id ≠ "") :
    get_learning_path course target
        (build_curriculum_graph course (pre ++ m :: post) ts ss GraphState.empty).1
      = pre.map (fun x => (⟨"module", x.id, x.name, some x.order⟩ : PathItem))
        ++ [⟨"module", m.id, m.name, some m.order⟩]
        ++ (sortStableBy (fun p q : String × String => strLtB p.2 q.2)
              ((ss.filter (fun s => decide (s.topicId = t.id))).map
                (fun s => (s.id, s.name)))).map
            (fun p => (⟨"subtopic", p.1, p.2, none⟩ : PathItem))
        ++ [⟨"topic", t.id, t.name, none⟩] := by
  have hm_ms : m ∈ pre ++ m :: post := by simp
  have hMn : ((moduleWrites course (pre ++ m :: post)).map (·.1)).Nodup :=
    writes_keys_nodup (fun x : ModuleIn => x.id)
      (fun x => (⟨x.name, x.order⟩ : ModuleProps)) course (pre ++ m :: post) hmnd
  have hTn : ((topicWrites course ts).map (·.1)).Nodup :=
    writes_keys_nodup (fun x : TopicIn => x.id)
      (fun x => (⟨x.name, x.moduleId⟩ : TopicProps)) course ts htnd
  have hSn : ((subtopicWrites course ss).map (·.1)).Nodup :=
    writes_keys_nodup (fun x : SubtopicIn => x.id)
      (fun x => (⟨x.name, x.topicId⟩ : SubtopicProps)) course ss hsnd
  have hMfresh : applyWrites GraphState.empty.moduleNodes
      (moduleWrites course (pre ++ m :: post)) = moduleWrites course (pre ++ m :: post) := by
    rw [applyWrites_fresh (moduleWrites course (pre ++ m :: post))
      GraphState.empty.moduleNodes (fun kv _ => rfl) hMn]
    rfl
  have hTfresh : applyWrites GraphState.empty.topicNodes (topicWrites course ts)
      = topicWrites course ts := by
    rw [applyWrites_fresh (topicWrites course ts) GraphState.empty.topicNodes
      (fun kv _ => rfl) hTn]
    rfl
  have hSfresh : applyWrites GraphState.empty.subtopicNodes (subtopicWrites course ss)
      = subtopicWrites course ss := by
    rw [applyWrites_fresh (subtopicWrites course ss) GraphState.empty.subtopicNodes
      (fun kv _ => rfl) hSn]
    rfl
  have hstate := congrArg Prod.fst
    (build_curriculum_graph_eq course (pre ++ m :: post) ts ss GraphState.empty)
  have hMst : (build_curriculum_graph course (pre ++ m :: post) ts ss GraphState.empty).1.moduleNodes
      = moduleWrites course (pre ++ m :: post) := by
    rw [hstate]
    exact hMfresh
  have hTst : (build_curriculum_graph course (pre ++ m :: post) ts ss GraphState.empty).1.topicNodes
      = topicWrites course ts := by
    rw [hstate]
    exact hTfresh
  have hSst : (build_curriculum_graph course (pre ++ m :: post) ts ss GraphState.empty).1.subtopicNodes
      = subtopicWrites course ss := by
    rw [hstate]
    exact hSfresh
  have hPrecst : (build_curriculum_graph course (pre ++ m :: post) ts ss GraphState.empty).1.precedes
      = edgeFold (precCond course (moduleWrites course (pre ++ m :: post))) (precEdge course)
          ((pre ++ m :: post).zip (pre ++ m :: post).tail) [] := by
    rw [hstate]
    show edgeFold (precCond course (applyWrites GraphState.empty.moduleNodes
        (moduleWrites course (pre ++ m :: post)))) (precEdge course)
        ((pre ++ m :: post).zip (pre ++ m :: post).tail) GraphState.empty.precedes = _
    rw [hMfresh]
    rfl
  have hHTst : (build_curriculum_graph course (pre ++ m :: post) ts ss GraphState.empty).1.hasTopic
      = edgeFold (htCond course (moduleWrites course (pre ++ m :: post))) (htEdge course) ts [] := by
    rw [hstate]
    show edgeFold (htCond course (applyWrites GraphState.empty.moduleNodes
        (moduleWrites course (pre ++ m :: post)))) (htEdge course) ts
        GraphState.empty.hasTopic = _
    rw [hMfresh]
    rfl
  have hPRst : (build_curriculum_graph course (pre ++ m :: post) ts ss GraphState.empty).1.prereqOf
      = edgeFold (prCond course (topicWrites course ts)) (prEdge course) ss [] := by
    rw [hstate]
    show edgeFold (prCond course (applyWrites GraphState.empty.topicNodes
        (topicWrites course ts))) (prEdge course) ss GraphState.empty.prereqOf = _
    rw [hTfresh]
    rfl
  have hQ := topicQuery_built course (pre ++ m :: post) ts m t hmnd htnd hm_ms ht htmod hmid
    (build_curriculum_graph course (pre ++ m :: post) ts ss GraphState.empty).1 hMst hTst hHTst
  have hP := precedingModules_built course pre post m hmnd hord
    (build_curriculum_graph course (pre ++ m :: post) ts ss GraphState.empty).1 hMst hPrecst
  have hR := prereqSubtopics_built course ts ss t htnd hsnd ht htid
    (build_curriculum_graph course (pre ++ m :: post) ts ss GraphState.empty).1 hSst hPRst
  simp only [get_learning_path, hnorm, hQ]
  rw [hP, hR]
  simp [List.map_map, Function.comp]

theorem get_learning_path_spec_witness :
    get_learning_path "c" "T2"
        (build_curriculum_graph "c"
          [⟨"m1", "M1", 1⟩, ⟨"m2", "M2", 2⟩, ⟨"m3", "M3", 3⟩]
          [⟨"t2", "T2", some "m3", none⟩]
          [⟨"s1", "B", "t2"⟩, ⟨"s2", "A", "t2"⟩] GraphState.empty).1
      = [⟨"module", "m1", "M1", some 1⟩, ⟨"module", "m2", "M2", some 2⟩,
         ⟨"module", "m3", "M3", some 3⟩, ⟨"subtopic", "s2", "A", none⟩,
         ⟨"subtopic", "s1", "B", none⟩, ⟨"topic", "t2", "T2", none⟩] := by
  have h := get_learning_path_spec "c" "T2"
    [⟨"m1", "M1", 1⟩, ⟨"m2", "M2", 2⟩] [] ⟨"m3", "M3", 3⟩
    [⟨"t2", "T2", some "m3", none⟩]
    [⟨"s1", "B", "t2"⟩, ⟨"s2", "A", "t2"⟩] ⟨"t2", "T2", some "m3", none⟩
    (by decide) (by decide) (by decide) (by decide) (by decide) (by decide) (by decide)
    (by decide) (by decide)
  rw [show (([⟨"m1", "M1", 1⟩, ⟨"m2", "M2", 2⟩] : List ModuleIn)
        ++ (⟨"m3", "M3", 3⟩ : ModuleIn) :: ([] : List ModuleIn))
      = [⟨"m1", "M1", 1⟩, ⟨"m2", "M2", 2⟩, ⟨"m3", "M3", 3⟩] from rfl] at h
  rw [h]
  decide
